import Mathlib

/-!
Verification development for the state-management core of the codecanvas
visual editor (`packages/editor-frontend/src/core/store.ts`).

The TypeScript store is a zustand/immer store.  We embed it shallowly:

* `Record<ElementId, DesignElement>` becomes an association list
  `List (ElementId × DesignElement)`; JavaScript object semantics
  (unique keys, insertion order, `obj[k] = v` replacing in place or
  appending, `delete obj[k]` removing the key) are mirrored by
  `putEl` / `modifyEl` / `eraseKey` / `lookupKey`.
* Immer's `produceWithPatches` / `applyPatches` pairs are modelled at the
  granularity of the three recorded document components
  (`elements`, `rootElementOrder`, `selectedElementId`): a history entry
  stores the before/after value of the whole document, a component counts
  as touched by the patch exactly when its before and after values differ,
  and applying the (inverse) patch to a state replaces the touched
  components and leaves untouched components at their current value.
* The `_ignoreHistory` flag is only ever true inside the bodies of
  `undo` / `redo` / `startInteraction` / `endInteraction`, all of which are
  synchronous and reset it before returning, so every public entry point
  observes `_ignoreHistory = false`; the embedding therefore inlines the
  `false` branch of each action.
* JavaScript `Array.prototype.splice` / `indexOf` index conventions
  (negative indices, clamping, `-1` for a missing element) are mirrored by
  `jsIndexOf`, `jsSpliceInsert`, `jsSpliceRemove1`.
* Element ids are strings; the store generates non-empty ids (`el_0`, ...),
  so the JavaScript truthiness tests (`parentId && ...`) are modelled as
  `Option`-presence tests.
* The recursive tree walks `getAllDescendantIds` and `isAncestor` are
  general recursion in JavaScript; the embedding adds an explicit fuel
  argument, and every call site passes `elements.length + 1`, which is
  enough fuel whenever the walk terminates in JavaScript (any walk that
  visits pairwise-distinct live elements is shorter than that bound).
* Style maps (`React.CSSProperties` objects) become association lists of
  string key/value pairs; `{ ...old, ...new }` is `mergeStyle`.
-/

abbrev ElementId := String

/-- A CSS style object: string-keyed, string-valued association list. -/
abbrev ElementStyle := List (String × String)

/-- First-occurrence lookup in an association list (JS property access). -/
def lookupKey {β : Type} (id : String) : List (String × β) → Option β
  | [] => none
  | (k, v) :: rest => if k = id then some v else lookupKey id rest

/-- JS object spread `{ ...old, ...new }`: keys of `old` keep their position
with values overridden by `new` where present; keys only in `new` are
appended in order. -/
def mergeStyle (old new : ElementStyle) : ElementStyle :=
  old.map (fun kv => (kv.1, (lookupKey kv.1 new).getD kv.2)) ++
    new.filter (fun kv => lookupKey kv.1 old = none)

/-- `DesignElement` from `core/types.ts`, with the hierarchy fields
(`parentId`, `children`) the store adds. -/
structure DesignElement where
  id : ElementId
  type : String
  name : String
  style : ElementStyle
  parentId : Option ElementId
  children : List ElementId
deriving DecidableEq, Repr

/-- The element table: a JS object keyed by element id. -/
abbrev ElementTable := List (ElementId × DesignElement)

/-- The three document components recorded by the history engine; also the
shape of `interactionSnapshot`. -/
structure DocState where
  elements : ElementTable
  selectedElementId : Option ElementId
  rootElementOrder : List ElementId
deriving DecidableEq, Repr

/-- A history entry.  `patches` transforms `before` into `after`,
`inversePatches` transforms `after` back into `before`; we store the two
endpoint documents, and a component is touched by the patches exactly when
its value differs between them. -/
structure HistoryEntry where
  before : DocState
  after : DocState
deriving DecidableEq, Repr

/-- The zustand store state (`EditorState` in `store.ts`), minus the
transient `_ignoreHistory` flag (see the header comment). -/
structure EditorState where
  elements : ElementTable
  selectedElementId : Option ElementId
  rootElementOrder : List ElementId
  collapsedLayers : List ElementId
  undoStack : List HistoryEntry
  redoStack : List HistoryEntry
  canUndo : Bool
  canRedo : Bool
  isInteractionActive : Bool
  interactionSnapshot : Option DocState
deriving DecidableEq, Repr

/-- The initial store state. -/
def initialState : EditorState where
  elements := []
  selectedElementId := none
  rootElementOrder := []
  collapsedLayers := []
  undoStack := []
  redoStack := []
  canUndo := false
  canRedo := false
  isInteractionActive := false
  interactionSnapshot := none

/-- The document components of a store state. -/
def docOf (s : EditorState) : DocState :=
  { elements := s.elements
    selectedElementId := s.selectedElementId
    rootElementOrder := s.rootElementOrder }

/-- Replace the document components of a store state. -/
def setDoc (s : EditorState) (d : DocState) : EditorState :=
  { s with
    elements := d.elements
    selectedElementId := d.selectedElementId
    rootElementOrder := d.rootElementOrder }

/-- JS `obj[k] = v`: replace in place if the key exists, else append. -/
def putEl : ElementTable → ElementId → DesignElement → ElementTable
  | [], k, v => [(k, v)]
  | (k', v') :: rest, k, v =>
    if k' = k then (k, v) :: rest else (k', v') :: putEl rest k v

/-- Update the element stored at a key, if present (in-place mutation of a
record field in JS). -/
def modifyEl (id : ElementId) (f : DesignElement → DesignElement) :
    ElementTable → ElementTable
  | [] => []
  | (k, v) :: rest =>
    (if k = id then (k, f v) else (k, v)) :: modifyEl id f rest

/-- Mutate the `children` array of the element at a key. -/
def modifyChildren (id : ElementId) (f : List ElementId → List ElementId)
    (els : ElementTable) : ElementTable :=
  modifyEl id (fun e => { e with children := f e.children }) els

/-- JS `delete obj[k]`: drop every entry stored at the key. -/
def eraseKey (k : ElementId) : ElementTable → ElementTable
  | [] => []
  | (k', v) :: rest =>
    if k' = k then eraseKey k rest else (k', v) :: eraseKey k rest

/-- Index of the first occurrence, `length` when absent (helper for
`jsIndexOf`). -/
def idxOfStr (a : String) : List String → Nat
  | [] => 0
  | x :: xs => if x = a then 0 else idxOfStr a xs + 1

/-- JS `Array.prototype.indexOf`: first index, or `-1` when absent. -/
def jsIndexOf (a : String) (l : List String) : Int :=
  if a ∈ l then (idxOfStr a l : Int) else -1

/-- JS `arr.splice(i, 0, x)`: insert at `i`, clamped to `[0, length]`,
negative indices counting from the end. -/
def jsSpliceInsert (l : List String) (i : Int) (x : String) : List String :=
  let n : Nat := if i < 0 then (l.length + i).toNat else min i.toNat l.length
  l.insertIdx n x

/-- JS `arr.splice(i, 1)`: remove the element at `i` (no-op past the end),
negative indices counting from the end. -/
def jsSpliceRemove1 (l : List String) (i : Int) : List String :=
  let n : Nat := if i < 0 then (l.length + i).toNat else i.toNat
  l.eraseIdx n

/-- Insert at `targetIndex` when given, else push at the end (the
`targetIndex !== undefined && targetIndex !== null` pattern). -/
def jsSpliceInsertOpt (l : List String) (targetIndex : Option Int)
    (x : String) : List String :=
  match targetIndex with
  | some i => jsSpliceInsert l i x
  | none => l ++ [x]

/-- `getAllDescendantIds` from `store.ts`: children list followed by the
recursively collected descendants of each child, with explicit fuel. -/
def getAllDescendantIds : Nat → ElementId → ElementTable → List ElementId
  | 0, _, _ => []
  | fuel + 1, elementId, elements =>
    match lookupKey elementId elements with
    | none => []
    | some element =>
      if element.children = [] then []
      else
        element.children ++
          element.children.flatMap (fun childId =>
            getAllDescendantIds fuel childId elements)

/-- `isAncestor` from `store.ts`: walk `parentId` links upward from
`elementId`, looking for `potentialAncestorId`, with explicit fuel. -/
def isAncestor : Nat → ElementId → ElementId → ElementTable → Bool
  | 0, _, _, _ => false
  | fuel + 1, elementId, potentialAncestorId, elements =>
    match lookupKey elementId elements with
    | none => false
    | some element =>
      match element.parentId with
      | none => false
      | some p =>
        if p = potentialAncestorId then true
        else isAncestor fuel p potentialAncestorId elements

/-- `recordHistory`: push the entry on the undo stack (list head = stack
top), clear the redo stack, set the flags as the source does. -/
def recordHistory (s : EditorState) (entry : HistoryEntry) : EditorState :=
  { s with
    undoStack := entry :: s.undoStack
    redoStack := []
    canRedo := if s.redoStack.isEmpty then s.canRedo else false
    canUndo := true }

/-- The shared tail of every mutating action: apply the new document and,
when the Immer patches are non-empty (some recorded component changed),
record a history entry for the transition. -/
def commit (s : EditorState) (d1 : DocState) : EditorState :=
  if docOf s = d1 then s
  else recordHistory (setDoc s d1) { before := docOf s, after := d1 }

/-- The document produced by `addElement` (before history recording). -/
def addElementDoc (element : DesignElement) (parentId : Option ElementId)
    (targetIndex : Option Int) (s : EditorState) : DocState :=
  let newElement : DesignElement :=
    { element with parentId := parentId, children := [] }
  let els1 := putEl s.elements newElement.id newElement
  match parentId with
  | some pid =>
    if (lookupKey pid els1).isSome then
      { docOf s with
        elements :=
          modifyChildren pid
            (fun ch => jsSpliceInsertOpt ch targetIndex newElement.id) els1 }
    else
      { docOf s with
        elements := els1
        rootElementOrder :=
          jsSpliceInsertOpt s.rootElementOrder targetIndex newElement.id }
  | none =>
    { docOf s with
      elements := els1
      rootElementOrder :=
        jsSpliceInsertOpt s.rootElementOrder targetIndex newElement.id }

/-- `addElement(element, parentId = null, targetIndex)`. -/
def addElement (element : DesignElement) (parentId : Option ElementId)
    (targetIndex : Option Int) (s : EditorState) : EditorState :=
  commit s (addElementDoc element parentId targetIndex s)

/-- `selectElement(id)`: sets the selection, never recorded. -/
def selectElement (id : Option ElementId) (s : EditorState) : EditorState :=
  { s with selectedElementId := id }

/-- `updateElementStyle(id, newStyle)`: shallow-merge into the style map;
recorded only when no interaction is active. -/
def updateElementStyle (id : ElementId) (newStyle : ElementStyle)
    (s : EditorState) : EditorState :=
  let els1 := modifyEl id (fun e => { e with style := mergeStyle e.style newStyle }) s.elements
  if s.isInteractionActive then { s with elements := els1 }
  else commit s { docOf s with elements := els1 }

/-- `updateElementName(id, newName)`: replace the name verbatim; recorded
whenever the patches are non-empty (no interaction check in the source). -/
def updateElementName (id : ElementId) (newName : String)
    (s : EditorState) : EditorState :=
  commit s
    { docOf s with
      elements := modifyEl id (fun e => { e with name := newName }) s.elements }

/-- The ids deleted by `deleteElement(id)`: the id itself plus
`getAllDescendantIds`. -/
def allIdsToDelete (id : ElementId) (s : EditorState) : List ElementId :=
  id :: getAllDescendantIds (s.elements.length + 1) id s.elements

/-- The document produced by `deleteElement` for a live id (before history
recording). -/
def deleteElementDoc (id : ElementId) (s : EditorState)
    (elementToDelete : DesignElement) : DocState :=
  let isRoot := elementToDelete.parentId = none
  let oldParentId := elementToDelete.parentId
  let els1 :=
    match oldParentId with
    | some p =>
      if (lookupKey p s.elements).isSome then
        modifyChildren p (fun ch => ch.filter (· ≠ id)) s.elements
      else s.elements
    | none => s.elements
  let ro1 :=
    if isRoot then s.rootElementOrder.filter (· ≠ id)
    else s.rootElementOrder
  let sel1 :=
    match s.selectedElementId with
    | some sid => if sid ∈ allIdsToDelete id s then none else some sid
    | none => none
  let els2 := (allIdsToDelete id s).foldl (fun acc k => eraseKey k acc) els1
  { elements := els2, selectedElementId := sel1, rootElementOrder := ro1 }

/-- `deleteElement(id)`: no-op for an unknown id; otherwise remove the id
from its container, clear the selection when it pointed into the deleted
subtree, and delete the id and all its descendants from the table. -/
def deleteElement (id : ElementId) (s : EditorState) : EditorState :=
  match lookupKey id s.elements with
  | none => s
  | some elementToDelete => commit s (deleteElementDoc id s elementToDelete)

/-- The guard of `setParent`: dropping onto self or onto a descendant. -/
def setParentGuard (childId : ElementId) (newParentId : Option ElementId)
    (s : EditorState) : Bool :=
  decide (newParentId = some childId) ||
    (match newParentId with
     | some np => isAncestor (s.elements.length + 1) np childId s.elements
     | none => false)

/-- The document produced by a non-rejected `setParent` (before history
recording). -/
def setParentDoc (childId : ElementId) (newParentId : Option ElementId)
    (targetIndex : Option Int) (s : EditorState) (child : DesignElement) :
    DocState :=
  let oldParentId := child.parentId
  let wasRoot := oldParentId = none
  let els1 :=
    match oldParentId with
    | some p =>
      if (lookupKey p s.elements).isSome then
        modifyChildren p (fun ch => ch.filter (· ≠ childId)) s.elements
      else s.elements
    | none => s.elements
  let ro1 :=
    if wasRoot then s.rootElementOrder.filter (· ≠ childId)
    else s.rootElementOrder
  let els2 := modifyEl childId (fun e => { e with parentId := newParentId }) els1
  match newParentId with
  | some np =>
    if (lookupKey np els2).isSome then
      { docOf s with
        elements :=
          modifyChildren np
            (fun ch => jsSpliceInsertOpt ch targetIndex childId) els2
        rootElementOrder := ro1 }
    else
      { docOf s with elements := els2, rootElementOrder := ro1 }
  | none =>
    { docOf s with
      elements := els2
      rootElementOrder := jsSpliceInsertOpt ro1 targetIndex childId }

/-- `setParent(childId, newParentId, targetIndex)`: reject self/descendant
targets; otherwise remove the child from its current container, update its
`parentId`, and insert it into the new container. -/
def setParent (childId : ElementId) (newParentId : Option ElementId)
    (targetIndex : Option Int) (s : EditorState) : EditorState :=
  match lookupKey childId s.elements with
  | none => s
  | some child =>
    if setParentGuard childId newParentId s then s
    else commit s (setParentDoc childId newParentId targetIndex s child)

/-- The sibling list `reorderSiblings` operates on: the root order for a
null parent, else that parent's children (empty when the parent is dead). -/
def siblingListOf (s : EditorState) (parentId : Option ElementId) :
    List ElementId :=
  match parentId with
  | none => s.rootElementOrder
  | some p => ((lookupKey p s.elements).map DesignElement.children).getD []

/-- The in-place list surgery of `reorderSiblings`: remove the dragged id,
recompute the target's index, insert before/after it.  Returns `none` when
either id is absent (the `=== -1` early return). -/
def reorderedList (siblings : List ElementId) (draggedId targetId : ElementId)
    (position : Bool) : Option (List ElementId) :=
  let draggedIndex := jsIndexOf draggedId siblings
  let targetIndex0 := jsIndexOf targetId siblings
  if draggedIndex = -1 ∨ targetIndex0 = -1 then none
  else
    let shortened := jsSpliceRemove1 siblings draggedIndex
    let targetIndex := jsIndexOf targetId shortened
    let insertAtIndex := if position then targetIndex else targetIndex + 1
    some (jsSpliceInsert shortened insertAtIndex draggedId)

/-- The document produced by `reorderSiblings` once the reordered list is
known (write back to the root order or the parent's children). -/
def reorderSiblingsDoc (parentId : Option ElementId) (newList : List ElementId)
    (s : EditorState) : DocState :=
  match parentId with
  | none => { docOf s with rootElementOrder := newList }
  | some p =>
    if (lookupKey p s.elements).isSome then
      { docOf s with elements := modifyChildren p (fun _ => newList) s.elements }
    else docOf s

/-- `reorderSiblings(parentId, draggedId, targetId, position)`;
`position = true` stands for `"before"`, `false` for `"after"`. -/
def reorderSiblings (parentId : Option ElementId)
    (draggedId targetId : ElementId) (position : Bool)
    (s : EditorState) : EditorState :=
  match reorderedList (siblingListOf s parentId) draggedId targetId position with
  | none => s
  | some newList => commit s (reorderSiblingsDoc parentId newList s)

/-- `startInteraction()`: set the flag and capture the snapshot. -/
def startInteraction (s : EditorState) : EditorState :=
  { s with isInteractionActive := true, interactionSnapshot := some (docOf s) }

/-- `endInteraction()`: when an interaction is active and the live document
differs from the snapshot, push one entry covering the whole gesture
(clearing redo); then leave the interaction state. -/
def endInteraction (s : EditorState) : EditorState :=
  let s1 :=
    match s.isInteractionActive, s.interactionSnapshot with
    | true, some snap =>
      if docOf s = snap then s
      else
        { s with
          undoStack := { before := snap, after := docOf s } :: s.undoStack
          redoStack := []
          canRedo := if s.redoStack.isEmpty then s.canRedo else false
          canUndo := true }
    | _, _ => s
  { s1 with isInteractionActive := false, interactionSnapshot := none }

/-- Apply an entry's inverse patches to a document: every touched component
is replaced by its `before` value, untouched components keep their current
value (Immer path-based patches do not mention untouched components). -/
def applyInversePatches (d : DocState) (e : HistoryEntry) : DocState :=
  { elements :=
      if e.before.elements = e.after.elements then d.elements
      else e.before.elements
    selectedElementId :=
      if e.before.selectedElementId = e.after.selectedElementId then
        d.selectedElementId
      else e.before.selectedElementId
    rootElementOrder :=
      if e.before.rootElementOrder = e.after.rootElementOrder then
        d.rootElementOrder
      else e.before.rootElementOrder }

/-- Apply an entry's forward patches to a document (symmetric to
`applyInversePatches`). -/
def applyForwardPatches (d : DocState) (e : HistoryEntry) : DocState :=
  { elements :=
      if e.before.elements = e.after.elements then d.elements
      else e.after.elements
    selectedElementId :=
      if e.before.selectedElementId = e.after.selectedElementId then
        d.selectedElementId
      else e.after.selectedElementId
    rootElementOrder :=
      if e.before.rootElementOrder = e.after.rootElementOrder then
        d.rootElementOrder
      else e.after.rootElementOrder }

/-- `undo()`: apply the top entry's inverse patches to the current state,
move the entry to the redo stack, update the flags. -/
def undo (s : EditorState) : EditorState :=
  if s.canUndo = false then s
  else
    match s.undoStack with
    | [] => s
    | entry :: rest =>
      let reverted := applyInversePatches (docOf s) entry
      { setDoc s reverted with
        undoStack := rest
        redoStack := entry :: s.redoStack
        canUndo := !rest.isEmpty
        canRedo := true }

/-- `redo()`: apply the top redo entry's forward patches, move the entry
back to the undo stack, update the flags. -/
def redo (s : EditorState) : EditorState :=
  if s.canRedo = false then s
  else
    match s.redoStack with
    | [] => s
    | entry :: rest =>
      let redone := applyForwardPatches (docOf s) entry
      { setDoc s redone with
        redoStack := rest
        undoStack := entry :: s.undoStack
        canRedo := !rest.isEmpty
        canUndo := true }

/-- `toggleLayerCollapse(elementId)`: JS `Set` membership toggle
(insertion-ordered). -/
def toggleLayerCollapse (elementId : ElementId) (s : EditorState) : EditorState :=
  { s with
    collapsedLayers :=
      if elementId ∈ s.collapsedLayers then s.collapsedLayers.erase elementId
      else s.collapsedLayers ++ [elementId] }

/-- The public operations of the store, as data (for statements that
quantify over operations). -/
inductive EditorOp where
  | addElement (element : DesignElement) (parentId : Option ElementId)
      (targetIndex : Option Int)
  | selectElement (id : Option ElementId)
  | updateElementStyle (id : ElementId) (newStyle : ElementStyle)
  | updateElementName (id : ElementId) (newName : String)
  | deleteElement (id : ElementId)
  | setParent (childId : ElementId) (newParentId : Option ElementId)
      (targetIndex : Option Int)
  | reorderSiblings (parentId : Option ElementId)
      (draggedId targetId : ElementId) (position : Bool)
  | toggleLayerCollapse (elementId : ElementId)
  | startInteraction
  | endInteraction
  | undo
  | redo
deriving DecidableEq, Repr

/-- Interpretation of an operation on the store state. -/
def applyOp : EditorOp → EditorState → EditorState
  | .addElement e p t, s => addElement e p t s
  | .selectElement i, s => selectElement i s
  | .updateElementStyle i st, s => updateElementStyle i st s
  | .updateElementName i n, s => updateElementName i n s
  | .deleteElement i, s => deleteElement i s
  | .setParent c p t, s => setParent c p t s
  | .reorderSiblings p d t pos, s => reorderSiblings p d t pos s
  | .toggleLayerCollapse i, s => toggleLayerCollapse i s
  | .startInteraction, s => startInteraction s
  | .endInteraction, s => endInteraction s
  | .undo, s => undo s
  | .redo, s => redo s

/-- The six Tree Operations (the mutations wrapped by the history engine). -/
def EditorOp.isTreeOp : EditorOp → Bool
  | .addElement _ _ _ => true
  | .updateElementStyle _ _ => true
  | .updateElementName _ _ => true
  | .deleteElement _ => true
  | .setParent _ _ _ => true
  | .reorderSiblings _ _ _ _ => true
  | _ => false

/-- Recognizer for `toggleLayerCollapse` operations. -/
def EditorOp.isToggle : EditorOp → Bool
  | .toggleLayerCollapse _ => true
  | _ => false

/-! ### Basic lemmas about the store plumbing -/

@[simp]
theorem docOf_setDoc (s : EditorState) (d : DocState) : docOf (setDoc s d) = d := by
  simp [docOf, setDoc]

@[simp]
theorem collapsedLayers_setDoc (s : EditorState) (d : DocState) :
    (setDoc s d).collapsedLayers = s.collapsedLayers := rfl

@[simp]
theorem collapsedLayers_recordHistory (s : EditorState) (e : HistoryEntry) :
    (recordHistory s e).collapsedLayers = s.collapsedLayers := rfl

@[simp]
theorem collapsedLayers_commit (s : EditorState) (d : DocState) :
    (commit s d).collapsedLayers = s.collapsedLayers := by
  unfold commit
  split <;> simp

theorem applyInversePatches_after (e : HistoryEntry) :
    applyInversePatches e.after e = e.before := by
  obtain ⟨⟨a₁, a₂, a₃⟩, ⟨b₁, b₂, b₃⟩⟩ := e
  simp only [applyInversePatches]
  refine DocState.mk.injEq .. ▸ ?_
  constructor
  · split <;> simp_all
  constructor
  · split <;> simp_all
  · split <;> simp_all

theorem applyForwardPatches_before (e : HistoryEntry) :
    applyForwardPatches e.before e = e.after := by
  obtain ⟨⟨a₁, a₂, a₃⟩, ⟨b₁, b₂, b₃⟩⟩ := e
  simp only [applyForwardPatches]
  refine DocState.mk.injEq .. ▸ ?_
  constructor
  · split <;> simp_all
  constructor
  · split <;> simp_all
  · split <;> simp_all

/-- Every tree operation is an early return, a direct (unrecorded) state
write, or a `commit` of a new document against the current state. -/
theorem treeOp_shape (op : EditorOp) (s : EditorState) (h : op.isTreeOp = true) :
    applyOp op s = s ∨ (∃ els, applyOp op s = { s with elements := els }) ∨
      ∃ d, applyOp op s = commit s d := by
  cases op with
  | addElement e p t => exact Or.inr (Or.inr ⟨_, rfl⟩)
  | updateElementStyle i st =>
    by_cases hi : s.isInteractionActive = true
    · have heq : applyOp (EditorOp.updateElementStyle i st) s =
          { s with elements :=
              modifyEl i (fun e => { e with style := mergeStyle e.style st }) s.elements } := by
        simp [applyOp, updateElementStyle, hi]
      exact Or.inr (Or.inl ⟨_, heq⟩)
    · have heq : applyOp (EditorOp.updateElementStyle i st) s =
          commit s
            { docOf s with
              elements :=
                modifyEl i (fun e => { e with style := mergeStyle e.style st }) s.elements } := by
        simp [applyOp, updateElementStyle, hi]
      exact Or.inr (Or.inr ⟨_, heq⟩)
  | updateElementName i n => exact Or.inr (Or.inr ⟨_, rfl⟩)
  | deleteElement i =>
    cases hl : lookupKey i s.elements with
    | none => exact Or.inl (by simp [applyOp, deleteElement, hl])
    | some e =>
      have heq : applyOp (EditorOp.deleteElement i) s = commit s (deleteElementDoc i s e) := by
        simp [applyOp, deleteElement, hl]
      exact Or.inr (Or.inr ⟨_, heq⟩)
  | setParent c p t =>
    cases hl : lookupKey c s.elements with
    | none => exact Or.inl (by simp [applyOp, setParent, hl])
    | some child =>
      by_cases hg : setParentGuard c p s = true
      · refine Or.inl ?_
        simp [applyOp, setParent, hl, hg]
      · have heq : applyOp (EditorOp.setParent c p t) s =
            commit s (setParentDoc c p t s child) := by
          simp [applyOp, setParent, hl, hg]
        exact Or.inr (Or.inr ⟨_, heq⟩)
  | reorderSiblings p d t pos =>
    cases hr : reorderedList (siblingListOf s p) d t pos with
    | none => exact Or.inl (by simp [applyOp, reorderSiblings, hr])
    | some l =>
      have heq : applyOp (EditorOp.reorderSiblings p d t pos) s =
          commit s (reorderSiblingsDoc p l s) := by
        simp [applyOp, reorderSiblings, hr]
      exact Or.inr (Or.inr ⟨_, heq⟩)
  | _ => simp [EditorOp.isTreeOp] at h

@[simp]
theorem docOf_recordHistory (s : EditorState) (e : HistoryEntry) :
    docOf (recordHistory s e) = docOf s := rfl

@[simp]
theorem undoStack_recordHistory (s : EditorState) (e : HistoryEntry) :
    (recordHistory s e).undoStack = e :: s.undoStack := rfl

@[simp]
theorem redoStack_recordHistory (s : EditorState) (e : HistoryEntry) :
    (recordHistory s e).redoStack = [] := rfl

@[simp]
theorem canUndo_recordHistory (s : EditorState) (e : HistoryEntry) :
    (recordHistory s e).canUndo = true := rfl

@[simp]
theorem undoStack_setDoc (s : EditorState) (d : DocState) :
    (setDoc s d).undoStack = s.undoStack := rfl

@[simp]
theorem redoStack_setDoc (s : EditorState) (d : DocState) :
    (setDoc s d).redoStack = s.redoStack := rfl

/-- Sample elements shared by the concrete witness states below. -/
def elemA : DesignElement :=
  { id := "a", type := "div", name := "A", style := [("left", "0px")],
    parentId := none, children := [] }

def elemB : DesignElement :=
  { id := "b", type := "div", name := "B", style := [],
    parentId := none, children := [] }

/-! ### C10 -/

/-- C10: `deleteElement` (and every other operation except
`toggleLayerCollapse`) leaves `collapsedLayers` unchanged, so ids of deleted
elements stay members of the set and only `toggleLayerCollapse` ever
modifies it. -/
theorem C10_collapsedLayers_frame (op : EditorOp) (s : EditorState)
    (h : op.isToggle = false) :
    (applyOp op s).collapsedLayers = s.collapsedLayers := by
  by_cases ht : op.isTreeOp = true
  · rcases treeOp_shape op s ht with h1 | ⟨els, h1⟩ | ⟨d, h1⟩ <;> simp [h1]
  · cases op with
    | toggleLayerCollapse i => simp [EditorOp.isToggle] at h
    | selectElement i => rfl
    | startInteraction => rfl
    | endInteraction =>
      simp only [applyOp, endInteraction]
      split <;> first | rfl | (split <;> rfl)
    | undo =>
      simp only [applyOp, undo]
      split
      · rfl
      · split <;> rfl
    | redo =>
      simp only [applyOp, redo]
      split
      · rfl
      · split <;> rfl
    | _ => simp [EditorOp.isTreeOp] at ht

/-- C10 witness: `deleteElement` at a concrete state leaves
`collapsedLayers` unchanged. -/
theorem C10_collapsedLayers_frame_witness :
    (EditorOp.deleteElement "a").isToggle = false ∧
    (applyOp (EditorOp.deleteElement "a") initialState).collapsedLayers =
      initialState.collapsedLayers :=
  ⟨rfl, C10_collapsedLayers_frame (EditorOp.deleteElement "a") initialState rfl⟩

/-! ### C3 -/

/-- C3: `setParent(A, B)` is rejected — the whole store state is returned
unchanged — whenever `B = A` or `B` is a descendant of `A` (that is, the
upward `parentId` walk from `B` meets `A`, the check `isAncestor` performs). -/
theorem C3_setParent_rejected (s : EditorState) (childId : ElementId)
    (newParentId : Option ElementId) (targetIndex : Option Int)
    (h : newParentId = some childId ∨
      ∃ np, newParentId = some np ∧
        isAncestor (s.elements.length + 1) np childId s.elements = true) :
    setParent childId newParentId targetIndex s = s := by
  cases hl : lookupKey childId s.elements with
  | none => simp [setParent, hl]
  | some child =>
    have hg : setParentGuard childId newParentId s = true := by
      unfold setParentGuard
      rcases h with h | ⟨np, rfl, hanc⟩
      · simp [h]
      · simp [hanc]
    simp [setParent, hl, hg]

/-- A two-element state: `a` is a root, `b` is a child of `a`. -/
def cycleState : EditorState :=
  addElement elemB (some "a") none (addElement elemA none none initialState)

/-- C3 witness: reparenting `a` under its own child `b` is rejected. -/
theorem C3_setParent_rejected_witness :
    (some "b" = some "a" ∨
      ∃ np, (some "b" : Option ElementId) = some np ∧
        isAncestor (cycleState.elements.length + 1) np "a" cycleState.elements = true) ∧
    setParent "a" (some "b") none cycleState = cycleState :=
  ⟨Or.inr ⟨"b", rfl, by decide⟩,
    C3_setParent_rejected cycleState "a" (some "b") none (Or.inr ⟨"b", rfl, by decide⟩)⟩

/-! ### C9 (code bug) -/

/-- The store after `addElement(elemA)` (one root element `"a"`). -/
def afterAddA : EditorState := addElement elemA none none initialState

/-- The store after `addElement(elemA)`, `selectElement("a")`, `undo()`. -/
def c9State : EditorState := undo (selectElement (some "a") afterAddA)

/-- C9: evaluating the code on the failing input
`addElement(A); selectElement(A); undo()` leaves `selectedElementId = "a"`
while the element table is empty — the selection references no live
element, contradicting the invariant the claim states. -/
theorem C9_selection_dangles :
    c9State.selectedElementId = some "a" ∧
    lookupKey "a" c9State.elements = none ∧
    c9State.elements = [] := by decide

/-! ### C4 (code bug) -/

/-- The store after reparenting `"a"` under the unknown id `"ghost"`. -/
def c4State : EditorState := setParent "a" (some "ghost") none afterAddA

/-- C4: evaluating the code on the failing input
`setParent("a", "ghost")` with `"ghost"` not a key of the table: the call is
*not* rejected — it removes `"a"` from the root order, dangles its
`parentId` at `"ghost"`, inserts it into no container, and records a
history entry. -/
theorem C4_dead_parent_not_rejected :
    lookupKey "ghost" afterAddA.elements = none ∧
    c4State ≠ afterAddA ∧
    c4State.rootElementOrder = [] ∧
    (lookupKey "a" c4State.elements).map DesignElement.parentId =
      some (some "ghost") ∧
    c4State.undoStack.length = afterAddA.undoStack.length + 1 := by decide

/-! ### C2 (corrected) -/

/-- A state with an active interaction (gesture started after adding `a`). -/
def gestureState : EditorState := startInteraction afterAddA

/-- C2 counterexample: `updateElementName` called while an interaction is
active still appends its own entry to the undo stack, contradicting the
claim that every Tree Operation is excluded from per-call recording during
a gesture. -/
theorem C2_counterexample :
    gestureState.isInteractionActive = true ∧
    (updateElementName "a" "renamed" gestureState).undoStack.length =
      gestureState.undoStack.length + 1 := by decide

/-- C2 (amended): during an active interaction `updateElementStyle` — the
one Tree Operation the source excludes from per-call recording — mutates
the Document State directly and leaves both history stacks and both flags
unchanged. -/
theorem C2_style_not_recorded_during_interaction (s : EditorState)
    (id : ElementId) (newStyle : ElementStyle)
    (h : s.isInteractionActive = true) :
    (updateElementStyle id newStyle s).elements =
      modifyEl id (fun e => { e with style := mergeStyle e.style newStyle })
        s.elements ∧
    (updateElementStyle id newStyle s).undoStack = s.undoStack ∧
    (updateElementStyle id newStyle s).redoStack = s.redoStack ∧
    (updateElementStyle id newStyle s).canUndo = s.canUndo ∧
    (updateElementStyle id newStyle s).canRedo = s.canRedo ∧
    (updateElementStyle id newStyle s).rootElementOrder = s.rootElementOrder ∧
    (updateElementStyle id newStyle s).selectedElementId = s.selectedElementId := by
  simp [updateElementStyle, h]

/-- C2 witness: the amended statement at a concrete active gesture. -/
theorem C2_style_not_recorded_witness :
    gestureState.isInteractionActive = true ∧
    ((updateElementStyle "a" [("left", "5px")] gestureState).elements =
      modifyEl "a"
        (fun e => { e with style := mergeStyle e.style [("left", "5px")] })
        gestureState.elements ∧
    (updateElementStyle "a" [("left", "5px")] gestureState).undoStack =
      gestureState.undoStack ∧
    (updateElementStyle "a" [("left", "5px")] gestureState).redoStack =
      gestureState.redoStack ∧
    (updateElementStyle "a" [("left", "5px")] gestureState).canUndo =
      gestureState.canUndo ∧
    (updateElementStyle "a" [("left", "5px")] gestureState).canRedo =
      gestureState.canRedo ∧
    (updateElementStyle "a" [("left", "5px")] gestureState).rootElementOrder =
      gestureState.rootElementOrder ∧
    (updateElementStyle "a" [("left", "5px")] gestureState).selectedElementId =
      gestureState.selectedElementId) :=
  ⟨by decide,
    C2_style_not_recorded_during_interaction gestureState "a"
      [("left", "5px")] (by decide)⟩

/-! ### C1 (corrected) -/

/-- The store after `addElement(elemA)` then `selectElement("a")`. -/
def c1State : EditorState := selectElement (some "a") afterAddA

/-- C1 counterexample: with `M = [addElement(A), selectElement(A)]` the last
recorded entry is the one produced by `addElement` against the initial
state (`selectElement` records nothing), yet `undo()` does not restore the
Document State that held before that entry: the selection stays `"a"`. -/
theorem C1_counterexample :
    c1State.undoStack = afterAddA.undoStack ∧
    c1State.undoStack.length = 1 ∧
    (c1State.undoStack.head?).map HistoryEntry.before =
      some (docOf initialState) ∧
    docOf (undo c1State) ≠ docOf initialState := by decide

/-- Shorthand for replacing the stack/flag bookkeeping fields of a state. -/
def withStacks (st : EditorState) (u r : List HistoryEntry) (cu cr : Bool) :
    EditorState :=
  { st with undoStack := u, redoStack := r, canUndo := cu, canRedo := cr }

@[simp]
theorem docOf_withStacks (st : EditorState) (u r : List HistoryEntry)
    (cu cr : Bool) : docOf (withStacks st u r cu cr) = docOf st := rfl

@[simp]
theorem undoStack_withStacks (st : EditorState) (u r : List HistoryEntry)
    (cu cr : Bool) : (withStacks st u r cu cr).undoStack = u := rfl

@[simp]
theorem redoStack_withStacks (st : EditorState) (u r : List HistoryEntry)
    (cu cr : Bool) : (withStacks st u r cu cr).redoStack = r := rfl

@[simp]
theorem canUndo_withStacks (st : EditorState) (u r : List HistoryEntry)
    (cu cr : Bool) : (withStacks st u r cu cr).canUndo = cu := rfl

@[simp]
theorem canRedo_withStacks (st : EditorState) (u r : List HistoryEntry)
    (cu cr : Bool) : (withStacks st u r cu cr).canRedo = cr := rfl

@[simp]
theorem collapsedLayers_withStacks (st : EditorState) (u r : List HistoryEntry)
    (cu cr : Bool) :
    (withStacks st u r cu cr).collapsedLayers = st.collapsedLayers := rfl

@[simp]
theorem isInteractionActive_withStacks (st : EditorState)
    (u r : List HistoryEntry) (cu cr : Bool) :
    (withStacks st u r cu cr).isInteractionActive = st.isInteractionActive := rfl

@[simp]
theorem interactionSnapshot_withStacks (st : EditorState)
    (u r : List HistoryEntry) (cu cr : Bool) :
    (withStacks st u r cu cr).interactionSnapshot = st.interactionSnapshot := rfl

/-- Characterization of `undo` on a state whose stack is known. -/
theorem undo_eq (st : EditorState) (e : HistoryEntry) (rest : List HistoryEntry)
    (hc : st.canUndo = true) (hs : st.undoStack = e :: rest) :
    undo st =
      withStacks (setDoc st (applyInversePatches (docOf st) e))
        rest (e :: st.redoStack) (!rest.isEmpty) true := by
  unfold undo
  rw [hc, hs]
  simp [withStacks, setDoc]

/-- Characterization of `redo` on a state whose stack is known. -/
theorem redo_eq (st : EditorState) (e : HistoryEntry) (rest : List HistoryEntry)
    (hc : st.canRedo = true) (hs : st.redoStack = e :: rest) :
    redo st =
      withStacks (setDoc st (applyForwardPatches (docOf st) e))
        (e :: st.undoStack) rest true (!rest.isEmpty) := by
  unfold redo
  rw [hc, hs]
  simp [withStacks, setDoc]

/-- Undoing directly after a recorded `commit` restores the pre-commit
document, and redoing after that undo restores the committed document. -/
theorem commit_undo_redo (s : EditorState) (d : DocState)
    (hd : docOf s ≠ d) :
    docOf (undo (commit s d)) = docOf s ∧
    docOf (redo (undo (commit s d))) = docOf (commit s d) := by
  have hc : commit s d =
      recordHistory (setDoc s d) { before := docOf s, after := d } := by
    rw [commit, if_neg hd]
  have h1 : (commit s d).canUndo = true := by rw [hc]; rfl
  have h2 : (commit s d).undoStack =
      { before := docOf s, after := d } :: s.undoStack := by rw [hc]; rfl
  have hdoc : docOf (commit s d) = d := by
    rw [hc]; simp [docOf, recordHistory, setDoc]
  have hu := undo_eq (commit s d) { before := docOf s, after := d }
    s.undoStack h1 h2
  have hudoc : docOf (undo (commit s d)) = docOf s := by
    rw [hu, docOf_withStacks, docOf_setDoc, hdoc]
    exact applyInversePatches_after { before := docOf s, after := d }
  have h3 : (undo (commit s d)).canRedo = true := by rw [hu]; rfl
  have h4 : (undo (commit s d)).redoStack =
      { before := docOf s, after := d } :: [] := by rw [hu, hc]; rfl
  have hr := redo_eq (undo (commit s d)) { before := docOf s, after := d } [] h3 h4
  refine ⟨hudoc, ?_⟩
  rw [hr, docOf_withStacks, docOf_setDoc, hudoc, hdoc]
  exact applyForwardPatches_before { before := docOf s, after := d }

/-- C1 (amended): whenever a Tree Operation records a history entry (the
undo stack grows by one), an immediate `undo()` restores the exact
Document State from before that operation, and an immediate `redo()` after
that undo restores the exact post-operation Document State.  (As stated,
the claim fails when unrecorded Document-State changes — e.g. a selection
change — intervene between the last recorded entry and the `undo`; see the
counterexample.) -/
theorem C1_undo_redo_roundtrip (op : EditorOp) (s : EditorState)
    (htree : op.isTreeOp = true)
    (hrec : (applyOp op s).undoStack.length = s.undoStack.length + 1) :
    docOf (undo (applyOp op s)) = docOf s ∧
    docOf (redo (undo (applyOp op s))) = docOf (applyOp op s) := by
  rcases treeOp_shape op s htree with h1 | ⟨els, h1⟩ | ⟨d, h1⟩
  · rw [h1] at hrec; omega
  · rw [h1] at hrec; simp at hrec
  · rw [h1] at hrec ⊢
    by_cases hd : docOf s = d
    · rw [commit, if_pos hd] at hrec; omega
    · exact commit_undo_redo s d hd

/-- C1 witness: the round trip at a concrete recorded mutation
(`addElement(elemA)` on the empty store). -/
theorem C1_undo_redo_roundtrip_witness :
    (EditorOp.addElement elemA none none).isTreeOp = true ∧
    (applyOp (EditorOp.addElement elemA none none) initialState).undoStack.length =
      initialState.undoStack.length + 1 ∧
    (docOf (undo (applyOp (EditorOp.addElement elemA none none) initialState)) =
        docOf initialState ∧
      docOf (redo (undo (applyOp (EditorOp.addElement elemA none none) initialState))) =
        docOf (applyOp (EditorOp.addElement elemA none none) initialState)) :=
  ⟨rfl, by decide,
    C1_undo_redo_roundtrip (EditorOp.addElement elemA none none) initialState
      rfl (by decide)⟩

/-! ### C6 -/

/-- During an active interaction `updateElementStyle` only rewrites the
element table. -/
theorem updateElementStyle_active_eq (s : EditorState) (id : ElementId)
    (st : ElementStyle) (h : s.isInteractionActive = true) :
    updateElementStyle id st s =
      { s with elements :=
          modifyEl id (fun e => { e with style := mergeStyle e.style st }) s.elements } := by
  simp [updateElementStyle, h]

/-- A drag/resize gesture consisting of `startInteraction()` followed by one
`updateElementStyle` call per entry of `us`, all targeting element `A`. -/
def styleGesture (A : ElementId) (us : List ElementStyle)
    (s : EditorState) : EditorState :=
  us.foldl (fun st u => updateElementStyle A u st) (startInteraction s)

/-- Folding style updates over a state with an active interaction leaves
every field but the element table unchanged. -/
theorem styleFold_fields (A : ElementId) (us : List ElementStyle)
    (s0 : EditorState) (h : s0.isInteractionActive = true) :
    (us.foldl (fun st u => updateElementStyle A u st) s0).isInteractionActive = true ∧
    (us.foldl (fun st u => updateElementStyle A u st) s0).undoStack = s0.undoStack ∧
    (us.foldl (fun st u => updateElementStyle A u st) s0).redoStack = s0.redoStack ∧
    (us.foldl (fun st u => updateElementStyle A u st) s0).rootElementOrder = s0.rootElementOrder ∧
    (us.foldl (fun st u => updateElementStyle A u st) s0).selectedElementId = s0.selectedElementId ∧
    (us.foldl (fun st u => updateElementStyle A u st) s0).interactionSnapshot = s0.interactionSnapshot ∧
    (us.foldl (fun st u => updateElementStyle A u st) s0).canUndo = s0.canUndo ∧
    (us.foldl (fun st u => updateElementStyle A u st) s0).canRedo = s0.canRedo := by
  induction us generalizing s0 with
  | nil => exact ⟨h, rfl, rfl, rfl, rfl, rfl, rfl, rfl⟩
  | cons u us ih =>
    have h1 : (updateElementStyle A u s0).isInteractionActive = true := by
      rw [updateElementStyle_active_eq s0 A u h]; exact h
    have hfields : (updateElementStyle A u s0).undoStack = s0.undoStack ∧
        (updateElementStyle A u s0).redoStack = s0.redoStack ∧
        (updateElementStyle A u s0).rootElementOrder = s0.rootElementOrder ∧
        (updateElementStyle A u s0).selectedElementId = s0.selectedElementId ∧
        (updateElementStyle A u s0).interactionSnapshot = s0.interactionSnapshot ∧
        (updateElementStyle A u s0).canUndo = s0.canUndo ∧
        (updateElementStyle A u s0).canRedo = s0.canRedo := by
      rw [updateElementStyle_active_eq s0 A u h]
      exact ⟨rfl, rfl, rfl, rfl, rfl, rfl, rfl⟩
    obtain ⟨f2, f3, f4, f5, f6, f7, f8⟩ := hfields
    obtain ⟨g1, g2, g3, g4, g5, g6, g7, g8⟩ := ih (updateElementStyle A u s0) h1
    exact ⟨g1, g2.trans f2, g3.trans f3, g4.trans f4, g5.trans f5,
      g6.trans f6, g7.trans f7, g8.trans f8⟩

/-- The fields of a style gesture relative to the pre-gesture state. -/
theorem styleGesture_fields (A : ElementId) (us : List ElementStyle)
    (s : EditorState) :
    (styleGesture A us s).isInteractionActive = true ∧
    (styleGesture A us s).undoStack = s.undoStack ∧
    (styleGesture A us s).redoStack = s.redoStack ∧
    (styleGesture A us s).rootElementOrder = s.rootElementOrder ∧
    (styleGesture A us s).selectedElementId = s.selectedElementId ∧
    (styleGesture A us s).interactionSnapshot = some (docOf s) := by
  have h := styleFold_fields A us (startInteraction s) rfl
  obtain ⟨h1, h2, h3, h4, h5, h6, _, _⟩ := h
  exact ⟨h1, h2, h3, h4, h5, h6⟩

/-- C6: for a gesture of `N ≥ 1` `updateElementStyle` calls bracketed by
`startInteraction()` / `endInteraction()` whose net element change is
non-empty, no call records its own entry, `endInteraction` pushes exactly
one entry, and a single `undo()` restores the pre-gesture Document State —
in particular element `A`'s pre-gesture style, not an intermediate one. -/
theorem C6_gesture_single_entry (s : EditorState) (A : ElementId)
    (us : List ElementStyle) (_hne : us ≠ [])
    (hchange : (styleGesture A us s).elements ≠ s.elements) :
    (styleGesture A us s).undoStack = s.undoStack ∧
    (endInteraction (styleGesture A us s)).undoStack.length =
      s.undoStack.length + 1 ∧
    docOf (undo (endInteraction (styleGesture A us s))) = docOf s ∧
    lookupKey A (undo (endInteraction (styleGesture A us s))).elements =
      lookupKey A s.elements := by
  obtain ⟨hact, hund, hred, hro, hsel, hsnap⟩ := styleGesture_fields A us s
  have hdg : docOf (styleGesture A us s) ≠ docOf s := by
    intro hcontra
    exact hchange (congrArg DocState.elements hcontra)
  have hend : endInteraction (styleGesture A us s) =
      { styleGesture A us s with
        undoStack :=
          { before := docOf s, after := docOf (styleGesture A us s) } ::
            (styleGesture A us s).undoStack
        redoStack := []
        canRedo :=
          if (styleGesture A us s).redoStack.isEmpty then
            (styleGesture A us s).canRedo
          else false
        canUndo := true
        isInteractionActive := false
        interactionSnapshot := none } := by
    unfold endInteraction
    rw [hact, hsnap]
    simp only []
    rw [if_neg hdg]
  refine ⟨hund, ?_, ?_, ?_⟩
  · rw [hend]
    simp [hund]
  all_goals {
    have hcu2 : (endInteraction (styleGesture A us s)).canUndo = true := by
      rw [hend]
    have hst2 : (endInteraction (styleGesture A us s)).undoStack =
        { before := docOf s, after := docOf (styleGesture A us s) } ::
          (styleGesture A us s).undoStack := by rw [hend]
    have hdoc2 : docOf (endInteraction (styleGesture A us s)) =
        docOf (styleGesture A us s) := by
      rw [hend]; simp [docOf]
    have hu := undo_eq (endInteraction (styleGesture A us s))
      { before := docOf s, after := docOf (styleGesture A us s) }
      (styleGesture A us s).undoStack hcu2 hst2
    have hudoc : docOf (undo (endInteraction (styleGesture A us s))) = docOf s := by
      rw [hu, docOf_withStacks, docOf_setDoc, hdoc2]
      exact applyInversePatches_after
        { before := docOf s, after := docOf (styleGesture A us s) }
    first
    | exact hudoc
    | · have helts : (undo (endInteraction (styleGesture A us s))).elements = s.elements :=
          congrArg DocState.elements hudoc
        rw [helts]
  }

/-- The nine pointer-move style updates of the spec's scenario 3. -/
def nineMoves : List ElementStyle :=
  [[("left", "10px")], [("left", "20px")], [("left", "30px")],
   [("left", "40px")], [("left", "50px")], [("left", "60px")],
   [("left", "70px")], [("left", "80px")], [("left", "90px")]]

/-- C6 witness: scenario 3 — nine style updates on `a` inside one gesture
produce one entry and undo restores `left = "0px"`. -/
theorem C6_gesture_single_entry_witness :
    nineMoves ≠ [] ∧
    (styleGesture "a" nineMoves afterAddA).elements ≠ afterAddA.elements ∧
    ((styleGesture "a" nineMoves afterAddA).undoStack = afterAddA.undoStack ∧
      (endInteraction (styleGesture "a" nineMoves afterAddA)).undoStack.length =
        afterAddA.undoStack.length + 1 ∧
      docOf (undo (endInteraction (styleGesture "a" nineMoves afterAddA))) =
        docOf afterAddA ∧
      lookupKey "a"
          (undo (endInteraction (styleGesture "a" nineMoves afterAddA))).elements =
        lookupKey "a" afterAddA.elements) :=
  ⟨by decide, by decide,
    C6_gesture_single_entry afterAddA "a" nineMoves (by decide) (by decide)⟩

/-! ### Association-list toolkit -/

theorem lookupKey_modifyEl (x id : ElementId) (f : DesignElement → DesignElement)
    (els : ElementTable) :
    lookupKey x (modifyEl id f els) =
      if x = id then (lookupKey id els).map f else lookupKey x els := by
  induction els with
  | nil => simp [modifyEl, lookupKey]
  | cons kv rest ih =>
    obtain ⟨k, v⟩ := kv
    simp only [modifyEl]
    by_cases hk : k = id
    · rw [if_pos hk]
      simp only [lookupKey]
      rw [if_pos hk]
      by_cases hkx : k = x
      · rw [if_pos hkx, if_pos (hkx ▸ hk)]
        rfl
      · have hxid : ¬x = id := fun h => hkx (hk.trans h.symm)
        rw [if_neg hkx, if_neg hkx, if_neg hxid, ih, if_neg hxid]
    · rw [if_neg hk]
      simp only [lookupKey]
      rw [if_neg hk]
      by_cases hkx : k = x
      · have hxid : ¬x = id := fun h => hk (hkx.trans h)
        rw [if_pos hkx, if_pos hkx, if_neg hxid]
      · rw [if_neg hkx, if_neg hkx, ih]

theorem lookupKey_modifyEl_none (x id : ElementId)
    (f : DesignElement → DesignElement) (els : ElementTable) :
    lookupKey x (modifyEl id f els) = none ↔ lookupKey x els = none := by
  rw [lookupKey_modifyEl]
  by_cases hx : x = id
  · subst hx; simp
  · simp [hx]

theorem lookupKey_eraseKey (x k : ElementId) (els : ElementTable) :
    lookupKey x (eraseKey k els) =
      if x = k then none else lookupKey x els := by
  induction els with
  | nil => simp [eraseKey, lookupKey]
  | cons kv rest ih =>
    obtain ⟨k', v⟩ := kv
    simp only [eraseKey]
    by_cases hk : k' = k
    · rw [if_pos hk, ih]
      by_cases hx : x = k
      · rw [if_pos hx, if_pos hx]
      · rw [if_neg hx, if_neg hx]
        simp only [lookupKey]
        rw [if_neg (fun h => hx (h.symm.trans hk))]
    · rw [if_neg hk]
      simp only [lookupKey]
      by_cases hkx : k' = x
      · have hx : ¬x = k := fun h => hk (hkx.symm ▸ h)
        rw [if_pos hkx, if_neg hx, if_pos hkx]
      · rw [if_neg hkx, ih]
        by_cases hx : x = k
        · rw [if_pos hx, if_pos hx]
        · rw [if_neg hx, if_neg hx, if_neg hkx]

theorem lookupKey_eraseFold (S : List ElementId) (x : ElementId)
    (els : ElementTable) :
    lookupKey x (S.foldl (fun acc k => eraseKey k acc) els) =
      if x ∈ S then none else lookupKey x els := by
  induction S generalizing els with
  | nil => simp
  | cons k S ih =>
    simp only [List.foldl_cons]
    rw [ih (eraseKey k els), lookupKey_eraseKey]
    by_cases hS : x ∈ S
    · simp [hS]
    · by_cases hk : x = k
      · simp [hS, hk]
      · simp [hS, hk]

theorem length_filter_ne_of_count (A : ElementId) (l : List ElementId) :
    (l.filter (· ≠ A)).length + l.count A = l.length := by
  induction l with
  | nil => simp
  | cons x xs ih =>
    by_cases hx : x = A
    · subst hx
      simp only [List.filter_cons, List.count_cons_self, List.length_cons]
      rw [if_neg (by simp)]
      omega
    · have hcount : (x :: xs).count A = xs.count A :=
        List.count_cons_of_ne (fun h => hx h.symm) _
      simp only [List.filter_cons, List.length_cons, hcount]
      rw [if_pos (by simpa using hx)]
      simp only [List.length_cons]
      omega

/-! ### C5 -/

/-- Fields of a `commit` that actually records. -/
theorem commit_fields (s : EditorState) (d : DocState) (h : docOf s ≠ d) :
    (commit s d).elements = d.elements ∧
    (commit s d).selectedElementId = d.selectedElementId ∧
    (commit s d).rootElementOrder = d.rootElementOrder := by
  rw [commit, if_neg h]
  exact ⟨rfl, rfl, rfl⟩

theorem mem_allIdsToDelete_self (A : ElementId) (s : EditorState) :
    A ∈ allIdsToDelete A s := by
  simp [allIdsToDelete]

/-- C5: for a live element `A`, `deleteElement(A)` removes exactly
`{A} ∪ descendants(A)` (as computed by the depth-first walk
`getAllDescendantIds`) from the element table, removes `A` exactly once
from its former container (the old parent's children, or the root order
when `A` was a root), clears the selection iff it pointed at `A` or a
descendant, and is a no-op on an unknown id. -/
theorem C5_deleteElement_spec (s : EditorState) (A : ElementId)
    (e : DesignElement) (hA : lookupKey A s.elements = some e)
    (hcont : match e.parentId with
      | some p => p ∉ allIdsToDelete A s ∧
          ∃ pe, lookupKey p s.elements = some pe ∧ pe.children.count A = 1
      | none => s.rootElementOrder.count A = 1) :
    (∀ x, lookupKey x (deleteElement A s).elements = none ↔
      (lookupKey x s.elements = none ∨ x ∈ allIdsToDelete A s)) ∧
    (match e.parentId with
      | some p =>
        ∃ pe, lookupKey p s.elements = some pe ∧
          lookupKey p (deleteElement A s).elements =
            some { pe with children := pe.children.filter (· ≠ A) } ∧
          (pe.children.filter (· ≠ A)).length + 1 = pe.children.length
      | none =>
        (deleteElement A s).rootElementOrder =
          s.rootElementOrder.filter (· ≠ A) ∧
        (s.rootElementOrder.filter (· ≠ A)).length + 1 =
          s.rootElementOrder.length) ∧
    ((deleteElement A s).selectedElementId = none ↔
      (s.selectedElementId = none ∨
        ∃ sid, s.selectedElementId = some sid ∧ sid ∈ allIdsToDelete A s)) ∧
    (∀ B, lookupKey B s.elements = none → deleteElement B s = s) := by
  have hdel : deleteElement A s = commit s (deleteElementDoc A s e) := by
    simp [deleteElement, hA]
  have hselEq : (deleteElementDoc A s e).selectedElementId =
      (match s.selectedElementId with
        | some sid => if sid ∈ allIdsToDelete A s then none else some sid
        | none => none) := rfl
  cases hp : e.parentId with
  | none =>
    have hcount : s.rootElementOrder.count A = 1 := by
      have := hcont
      rw [hp] at this
      exact this
    have hd : deleteElementDoc A s e =
        { elements :=
            (allIdsToDelete A s).foldl (fun acc k => eraseKey k acc) s.elements
          selectedElementId :=
            (match s.selectedElementId with
              | some sid => if sid ∈ allIdsToDelete A s then none else some sid
              | none => none)
          rootElementOrder := s.rootElementOrder.filter (· ≠ A) } := by
      unfold deleteElementDoc
      rw [hp]
      simp
    have hlookA : lookupKey A (deleteElementDoc A s e).elements = none := by
      rw [hd]
      rw [lookupKey_eraseFold]
      rw [if_pos (mem_allIdsToDelete_self A s)]
    have hne : docOf s ≠ deleteElementDoc A s e := by
      intro hcontra
      have := congrArg DocState.elements hcontra
      rw [show (docOf s).elements = s.elements from rfl] at this
      rw [← this] at hlookA
      rw [hA] at hlookA
      exact Option.noConfusion hlookA
    obtain ⟨hfe, hfs, hfr⟩ := commit_fields s (deleteElementDoc A s e) hne
    refine ⟨?_, ?_, ?_, ?_⟩
    · intro x
      rw [hdel, hfe, hd]
      rw [lookupKey_eraseFold]
      by_cases hx : x ∈ allIdsToDelete A s
      · simp [hx]
      · simp [hx]
    · rw [hdel, hfr, hd]
      refine ⟨rfl, ?_⟩
      have := length_filter_ne_of_count A s.rootElementOrder
      omega
    · rw [hdel, hfs, hd]
      cases hsel : s.selectedElementId with
      | none => simp
      | some sid =>
        by_cases hmem : sid ∈ allIdsToDelete A s
        · simp [hmem]
        · simp [hmem]
    · intro B hB
      simp [deleteElement, hB]
  | some p =>
    have hcont' : p ∉ allIdsToDelete A s ∧
        ∃ pe, lookupKey p s.elements = some pe ∧ pe.children.count A = 1 := by
      have := hcont
      rw [hp] at this
      exact this
    obtain ⟨hpnot, pe, hpe, hcount⟩ := hcont'
    have hpsome : (lookupKey p s.elements).isSome := by rw [hpe]; rfl
    have hd : deleteElementDoc A s e =
        { elements :=
            (allIdsToDelete A s).foldl (fun acc k => eraseKey k acc)
              (modifyChildren p (fun ch => ch.filter (· ≠ A)) s.elements)
          selectedElementId :=
            (match s.selectedElementId with
              | some sid => if sid ∈ allIdsToDelete A s then none else some sid
              | none => none)
          rootElementOrder := s.rootElementOrder } := by
      unfold deleteElementDoc
      rw [hp]
      simp [hpsome]
    have hlookA : lookupKey A (deleteElementDoc A s e).elements = none := by
      rw [hd]
      rw [lookupKey_eraseFold]
      rw [if_pos (mem_allIdsToDelete_self A s)]
    have hne : docOf s ≠ deleteElementDoc A s e := by
      intro hcontra
      have := congrArg DocState.elements hcontra
      rw [show (docOf s).elements = s.elements from rfl] at this
      rw [← this] at hlookA
      rw [hA] at hlookA
      exact Option.noConfusion hlookA
    obtain ⟨hfe, hfs, hfr⟩ := commit_fields s (deleteElementDoc A s e) hne
    refine ⟨?_, ?_, ?_, ?_⟩
    · intro x
      rw [hdel, hfe, hd]
      rw [lookupKey_eraseFold]
      by_cases hx : x ∈ allIdsToDelete A s
      · simp [hx]
      · simp only [if_neg hx]
        rw [show modifyChildren p (fun ch => ch.filter (· ≠ A)) s.elements =
          modifyEl p (fun el => { el with children := el.children.filter (· ≠ A) }) s.elements from rfl]
        rw [lookupKey_modifyEl_none]
        simp [hx]
    · refine ⟨pe, hpe, ?_, ?_⟩
      · rw [hdel, hfe, hd]
        rw [lookupKey_eraseFold, if_neg hpnot]
        rw [show modifyChildren p (fun ch => ch.filter (· ≠ A)) s.elements =
          modifyEl p (fun el => { el with children := el.children.filter (· ≠ A) }) s.elements from rfl]
        rw [lookupKey_modifyEl, if_pos rfl, hpe]
        rfl
      · have := length_filter_ne_of_count A pe.children
        omega
    · rw [hdel, hfs, hd]
      cases hsel : s.selectedElementId with
      | none => simp
      | some sid =>
        by_cases hmem : sid ∈ allIdsToDelete A s
        · simp [hmem]
        · simp [hmem]
    · intro B hB
      simp [deleteElement, hB]

/-- The record the store holds for `"a"` in `cycleState`. -/
def elemARooted : DesignElement :=
  { id := "a", type := "div", name := "A", style := [("left", "0px")],
    parentId := none, children := ["b"] }

/-- `cycleState` with `"b"` selected. -/
def c5State : EditorState := selectElement (some "b") cycleState

/-- C5 witness: deleting the root `"a"` (with child `"b"` selected) at a
concrete state. -/
theorem C5_deleteElement_spec_witness :
    lookupKey "a" c5State.elements = some elemARooted ∧
    (match elemARooted.parentId with
      | some p => p ∉ allIdsToDelete "a" c5State ∧
          ∃ pe, lookupKey p c5State.elements = some pe ∧
            pe.children.count "a" = 1
      | none => c5State.rootElementOrder.count "a" = 1) ∧
    ((∀ x, lookupKey x (deleteElement "a" c5State).elements = none ↔
      (lookupKey x c5State.elements = none ∨ x ∈ allIdsToDelete "a" c5State)) ∧
    (match elemARooted.parentId with
      | some p =>
        ∃ pe, lookupKey p c5State.elements = some pe ∧
          lookupKey p (deleteElement "a" c5State).elements =
            some { pe with children := pe.children.filter (· ≠ "a") } ∧
          (pe.children.filter (· ≠ "a")).length + 1 = pe.children.length
      | none =>
        (deleteElement "a" c5State).rootElementOrder =
          c5State.rootElementOrder.filter (· ≠ "a") ∧
        (c5State.rootElementOrder.filter (· ≠ "a")).length + 1 =
          c5State.rootElementOrder.length) ∧
    ((deleteElement "a" c5State).selectedElementId = none ↔
      (c5State.selectedElementId = none ∨
        ∃ sid, c5State.selectedElementId = some sid ∧
          sid ∈ allIdsToDelete "a" c5State)) ∧
    (∀ B, lookupKey B c5State.elements = none →
      deleteElement B c5State = c5State)) :=
  ⟨by decide, (by decide : c5State.rootElementOrder.count "a" = 1),
    C5_deleteElement_spec c5State "a" elemARooted (by decide)
      (by decide : c5State.rootElementOrder.count "a" = 1)⟩

/-! ### C7 -/

theorem idxOfStr_append_of_notMem (a : ElementId) (xs l : List ElementId)
    (h : a ∉ xs) :
    idxOfStr a (xs ++ l) = xs.length + idxOfStr a l := by
  induction xs with
  | nil => simp
  | cons x xs ih =>
    have hxa : ¬x = a := fun hc => h (by simp [hc])
    have h' : a ∉ xs := fun hc => h (by simp [hc])
    simp only [List.cons_append, idxOfStr, if_neg hxa, List.length_cons,
      List.append_eq]
    rw [ih h']
    omega

theorem eraseIdx_append_len (xs zs : List ElementId) (z : ElementId) :
    (xs ++ z :: zs).eraseIdx xs.length = xs ++ zs := by
  induction xs with
  | nil => simp
  | cons x xs ih => simp [List.eraseIdx, ih]

theorem insertIdx_append_len (xs zs : List ElementId) (a : ElementId) :
    (xs ++ zs).insertIdx xs.length a = xs ++ a :: zs := by
  induction xs with
  | nil => simp
  | cons x xs ih =>
    simp only [List.length_cons, List.cons_append, List.insertIdx_succ_cons, ih]

theorem jsIndexOf_of_mem (a : ElementId) (l : List ElementId) (h : a ∈ l) :
    jsIndexOf a l = (idxOfStr a l : Int) := by
  simp [jsIndexOf, h]

theorem jsSpliceRemove1_natCast (l : List ElementId) (n : Nat) :
    jsSpliceRemove1 l (n : Int) = l.eraseIdx n := by
  unfold jsSpliceRemove1
  rw [if_neg (by omega)]
  simp

theorem jsSpliceInsert_natCast (l : List ElementId) (n : Nat) (x : ElementId)
    (h : n ≤ l.length) :
    jsSpliceInsert l (n : Int) x = l.insertIdx n x := by
  unfold jsSpliceInsert
  rw [if_neg (by omega)]
  rw [show (n : Int).toNat = n from by simp]
  rw [min_eq_left h]

/-- The dragged element already sits immediately before the target:
`reorderSiblings`' list surgery reproduces the original list. -/
theorem reorderedList_adjacent_before (xs ys : List ElementId)
    (d t : ElementId) (h : (xs ++ d :: t :: ys).Nodup) :
    reorderedList (xs ++ d :: t :: ys) d t true =
      some (xs ++ d :: t :: ys) := by
  have hdxs : d ∉ xs := by
    intro hc
    rw [List.nodup_append] at h
    exact h.2.2 hc (by simp)
  have htxs : t ∉ xs := by
    intro hc
    rw [List.nodup_append] at h
    exact h.2.2 hc (by simp)
  have hdmem : d ∈ xs ++ d :: t :: ys := by simp
  have htmem : t ∈ xs ++ d :: t :: ys := by simp
  have hidxd : idxOfStr d (xs ++ d :: t :: ys) = xs.length := by
    rw [idxOfStr_append_of_notMem d xs _ hdxs]
    simp [idxOfStr]
  have hidxt : idxOfStr t (xs ++ t :: ys) = xs.length := by
    rw [idxOfStr_append_of_notMem t xs _ htxs]
    simp [idxOfStr]
  simp only [reorderedList]
  rw [jsIndexOf_of_mem d _ hdmem, jsIndexOf_of_mem t _ htmem, hidxd]
  rw [if_neg (by push_neg; exact ⟨by omega, by omega⟩)]
  rw [jsSpliceRemove1_natCast, eraseIdx_append_len]
  rw [jsIndexOf_of_mem t _ (by simp), hidxt]
  rw [if_pos trivial]
  rw [jsSpliceInsert_natCast _ _ _ (by simp)]
  rw [insertIdx_append_len]

/-- The dragged element already sits immediately after the target. -/
theorem reorderedList_adjacent_after (xs ys : List ElementId)
    (d t : ElementId) (h : (xs ++ t :: d :: ys).Nodup) :
    reorderedList (xs ++ t :: d :: ys) d t false =
      some (xs ++ t :: d :: ys) := by
  have hdxs : d ∉ xs := by
    intro hc
    rw [List.nodup_append] at h
    exact h.2.2 hc (by simp)
  have htxs : t ∉ xs := by
    intro hc
    rw [List.nodup_append] at h
    exact h.2.2 hc (by simp)
  have htd : ¬t = d := by
    rw [List.nodup_append] at h
    have := h.2.1
    intro hc
    rw [List.nodup_cons] at this
    exact this.1 (by simp [hc])
  have hdmem : d ∈ xs ++ t :: d :: ys := by simp
  have htmem : t ∈ xs ++ t :: d :: ys := by simp
  have hidxd : idxOfStr d (xs ++ t :: d :: ys) = xs.length + 1 := by
    rw [idxOfStr_append_of_notMem d xs _ hdxs]
    simp [idxOfStr, htd]
  have hidxt : idxOfStr t (xs ++ t :: ys) = xs.length := by
    rw [idxOfStr_append_of_notMem t xs _ htxs]
    simp [idxOfStr]
  have herase : (xs ++ t :: d :: ys).eraseIdx (xs.length + 1) = xs ++ t :: ys := by
    have h1 : xs ++ t :: d :: ys = (xs ++ [t]) ++ d :: ys := by simp
    have h2 : xs.length + 1 = (xs ++ [t]).length := by simp
    rw [h1, h2, eraseIdx_append_len]
    simp
  have hinsert : (xs ++ t :: ys).insertIdx (xs.length + 1) d = xs ++ t :: d :: ys := by
    have h1 : xs ++ t :: ys = (xs ++ [t]) ++ ys := by simp
    have h2 : xs.length + 1 = (xs ++ [t]).length := by simp
    rw [h1, h2, insertIdx_append_len]
    simp
  simp only [reorderedList]
  rw [jsIndexOf_of_mem d _ hdmem, jsIndexOf_of_mem t _ htmem, hidxd]
  rw [if_neg (by push_neg; exact ⟨by omega, by omega⟩)]
  rw [jsSpliceRemove1_natCast, herase]
  rw [jsIndexOf_of_mem t _ (by simp), hidxt]
  rw [if_neg (by simp)]
  rw [show ((xs.length : Int) + 1) = ((xs.length + 1 : Nat) : Int) from by omega]
  rw [jsSpliceInsert_natCast _ _ _ (by simp)]
  rw [hinsert]

/-- C7: `reorderSiblings` is idempotent-stable — when the dragged element
already occupies the position named by `(targetId, position)` (immediately
before the target for `"before"`, immediately after for `"after"`) in the
duplicate-free sibling list, the list it operates on is left unchanged:
same sequence of ids, same length. -/
theorem C7_reorderSiblings_stable (s : EditorState) (pid : Option ElementId)
    (d t : ElementId) (pos : Bool)
    (hnd : (siblingListOf s pid).Nodup)
    (hadj : (pos = true ∧ ∃ xs ys, siblingListOf s pid = xs ++ d :: t :: ys) ∨
      (pos = false ∧ ∃ xs ys, siblingListOf s pid = xs ++ t :: d :: ys)) :
    siblingListOf (reorderSiblings pid d t pos s) pid =
      siblingListOf s pid := by
  have hrl : reorderedList (siblingListOf s pid) d t pos =
      some (siblingListOf s pid) := by
    rcases hadj with ⟨hpos, xs, ys, hl⟩ | ⟨hpos, xs, ys, hl⟩
    · subst hpos
      rw [hl] at hnd ⊢
      exact reorderedList_adjacent_before xs ys d t hnd
    · subst hpos
      rw [hl] at hnd ⊢
      exact reorderedList_adjacent_after xs ys d t hnd
  have hro : reorderSiblings pid d t pos s =
      commit s (reorderSiblingsDoc pid (siblingListOf s pid) s) := by
    unfold reorderSiblings
    rw [hrl]
  rw [hro]
  cases pid with
  | none =>
    have hdoc : reorderSiblingsDoc none (siblingListOf s none) s = docOf s := rfl
    rw [hdoc, commit, if_pos rfl]
  | some p =>
    cases hlp : lookupKey p s.elements with
    | none =>
      have hdoc : reorderSiblingsDoc (some p) (siblingListOf s (some p)) s =
          docOf s := by
        simp only [reorderSiblingsDoc]
        rw [hlp]
        simp
      rw [hdoc, commit, if_pos rfl]
    | some pe =>
      have hsib : siblingListOf s (some p) = pe.children := by
        simp [siblingListOf, hlp]
      have hdocel :
          (reorderSiblingsDoc (some p) (siblingListOf s (some p)) s).elements =
            modifyEl p
              (fun e => { e with children := siblingListOf s (some p) })
              s.elements := by
        simp only [reorderSiblingsDoc]
        rw [hlp]
        simp [modifyChildren]
      by_cases hd : docOf s = reorderSiblingsDoc (some p) (siblingListOf s (some p)) s
      · rw [commit, if_pos hd]
      · obtain ⟨hfe, _, _⟩ := commit_fields s _ hd
        have hlk : lookupKey p
            (commit s (reorderSiblingsDoc (some p) (siblingListOf s (some p)) s)).elements =
            some { pe with children := siblingListOf s (some p) } := by
          rw [hfe, hdocel, lookupKey_modifyEl, if_pos rfl, hlp]
          rfl
        show ((lookupKey p
            (commit s (reorderSiblingsDoc (some p) (siblingListOf s (some p)) s)).elements).map
              DesignElement.children).getD [] = siblingListOf s (some p)
        rw [hlk]
        rfl

/-- Two roots `a`, `b` (in that order). -/
def twoRoots : EditorState := addElement elemB none none afterAddA

/-- C7 witness: reordering `a` to `"before b"` in root order `["a", "b"]`
leaves the order unchanged. -/
theorem C7_reorderSiblings_stable_witness :
    (siblingListOf twoRoots none).Nodup ∧
    ((true = true ∧ ∃ xs ys, siblingListOf twoRoots none = xs ++ "a" :: "b" :: ys) ∨
      (true = false ∧ ∃ xs ys, siblingListOf twoRoots none = xs ++ "b" :: "a" :: ys)) ∧
    siblingListOf (reorderSiblings none "a" "b" true twoRoots) none =
      siblingListOf twoRoots none :=
  ⟨by decide, Or.inl ⟨rfl, [], [], by decide⟩,
    C7_reorderSiblings_stable twoRoots none "a" "b" true (by decide)
      (Or.inl ⟨rfl, [], [], by decide⟩)⟩

/-! ### C8: root-order invariant under restricted reachability -/

theorem lookupKey_eq_none_iff (k : ElementId) (els : ElementTable) :
    lookupKey k els = none ↔ k ∉ els.map Prod.fst := by
  induction els with
  | nil => simp [lookupKey]
  | cons kv rest ih =>
    obtain ⟨k', v⟩ := kv
    by_cases hk : k' = k
    · subst hk
      simp [lookupKey]
    · have hk' : ¬k = k' := fun h => hk h.symm
      simp only [lookupKey, if_neg hk, List.map_cons, List.mem_cons, ih]
      simp [hk']

theorem lookupKey_putEl (x k : ElementId) (v : DesignElement)
    (els : ElementTable) :
    lookupKey x (putEl els k v) = if x = k then some v else lookupKey x els := by
  induction els with
  | nil =>
    simp only [putEl, lookupKey]
    by_cases hx : k = x
    · rw [if_pos hx, if_pos hx.symm]
    · rw [if_neg hx, if_neg (fun h => hx h.symm)]
  | cons kv rest ih =>
    obtain ⟨k', v'⟩ := kv
    simp only [putEl]
    by_cases hk : k' = k
    · rw [if_pos hk]
      simp only [lookupKey]
      by_cases hx : k = x
      · rw [if_pos hx, if_pos hx.symm]
      · rw [if_neg hx, if_neg (fun h => hx h.symm),
          if_neg (fun h : k' = x => hx (hk.symm.trans h))]
    · rw [if_neg hk]
      simp only [lookupKey]
      by_cases hkx : k' = x
      · rw [if_pos hkx, if_neg (fun h => hk (hkx.trans h)), if_pos hkx]
      · rw [if_neg hkx, ih]
        by_cases hxk : x = k
        · rw [if_pos hxk, if_pos hxk]
        · rw [if_neg hxk, if_neg hxk, if_neg hkx]

theorem mem_putEl_of_fresh (kv : ElementId × DesignElement) (k : ElementId)
    (v : DesignElement) (els : ElementTable)
    (hfresh : lookupKey k els = none) :
    kv ∈ putEl els k v ↔ kv = (k, v) ∨ kv ∈ els := by
  induction els with
  | nil => simp [putEl]
  | cons kv' rest ih =>
    obtain ⟨k', v'⟩ := kv'
    have hk : ¬k' = k := by
      intro hc
      rw [lookupKey, if_pos hc] at hfresh
      exact Option.noConfusion hfresh
    have hfresh' : lookupKey k rest = none := by
      rw [lookupKey, if_neg hk] at hfresh
      exact hfresh
    simp only [putEl, if_neg hk, List.mem_cons, ih hfresh']
    tauto

theorem mem_eraseKey (kv : ElementId × DesignElement) (k : ElementId)
    (els : ElementTable) :
    kv ∈ eraseKey k els ↔ kv ∈ els ∧ kv.1 ≠ k := by
  induction els with
  | nil => simp [eraseKey]
  | cons kv' rest ih =>
    obtain ⟨k', v'⟩ := kv'
    simp only [eraseKey]
    by_cases hk : k' = k
    · rw [if_pos hk, ih]
      simp only [List.mem_cons]
      constructor
      · rintro ⟨h1, h2⟩
        exact ⟨Or.inr h1, h2⟩
      · rintro ⟨h1 | h1, h2⟩
        · exfalso
          apply h2
          rw [h1]
          exact hk
        · exact ⟨h1, h2⟩
    · rw [if_neg hk]
      simp only [List.mem_cons, ih]
      constructor
      · rintro (h1 | ⟨h1, h2⟩)
        · subst h1
          exact ⟨Or.inl rfl, hk⟩
        · exact ⟨Or.inr h1, h2⟩
      · rintro ⟨h1 | h1, h2⟩
        · exact Or.inl h1
        · exact Or.inr ⟨h1, h2⟩

theorem mem_eraseFold (S : List ElementId) (kv : ElementId × DesignElement)
    (els : ElementTable) :
    kv ∈ S.foldl (fun acc k => eraseKey k acc) els ↔ kv ∈ els ∧ kv.1 ∉ S := by
  induction S generalizing els with
  | nil => simp
  | cons k S ih =>
    simp only [List.foldl_cons, ih, mem_eraseKey, List.mem_cons]
    tauto

theorem mem_modifyEl (kv : ElementId × DesignElement) (id : ElementId)
    (f : DesignElement → DesignElement) (els : ElementTable) :
    kv ∈ modifyEl id f els →
      ∃ v0, (kv.1, v0) ∈ els ∧ (kv.2 = v0 ∨ (kv.1 = id ∧ kv.2 = f v0)) := by
  induction els with
  | nil => simp [modifyEl]
  | cons kv' rest ih =>
    obtain ⟨k', v'⟩ := kv'
    simp only [modifyEl, List.mem_cons]
    by_cases hk : k' = id
    · rw [if_pos hk]
      rintro (h | h)
      · subst h
        exact ⟨v', Or.inl rfl, Or.inr ⟨hk, rfl⟩⟩
      · obtain ⟨v0, h1, h2⟩ := ih h
        exact ⟨v0, Or.inr h1, h2⟩
    · rw [if_neg hk]
      rintro (h | h)
      · subst h
        exact ⟨v', Or.inl rfl, Or.inl rfl⟩
      · obtain ⟨v0, h1, h2⟩ := ih h
        exact ⟨v0, Or.inr h1, h2⟩

theorem insertIdx_perm (l : List ElementId) (n : Nat) (x : ElementId)
    (h : n ≤ l.length) : List.Perm (l.insertIdx n x) (x :: l) := by
  induction l generalizing n with
  | nil =>
    have hn : n = 0 := by simpa using h
    subst hn
    simp
  | cons y ys ih =>
    cases n with
    | zero => simp
    | succ n =>
      rw [List.insertIdx_succ_cons]
      have hn : n ≤ ys.length := by simpa using h
      exact ((ih n hn).cons y).trans (List.Perm.swap x y ys)

theorem jsSpliceInsert_perm (l : List ElementId) (i : Int) (x : ElementId) :
    List.Perm (jsSpliceInsert l i x) (x :: l) := by
  unfold jsSpliceInsert
  split
  · exact insertIdx_perm _ _ _ (by omega)
  · exact insertIdx_perm _ _ _ (by omega)

theorem jsSpliceInsertOpt_perm (l : List ElementId) (t : Option Int)
    (x : ElementId) : List.Perm (jsSpliceInsertOpt l t x) (x :: l) := by
  cases t with
  | some i => exact jsSpliceInsert_perm l i x
  | none => exact List.perm_append_singleton x l

theorem eraseIdx_idxOfStr_perm (d : ElementId) (l : List ElementId)
    (h : d ∈ l) : List.Perm l (d :: l.eraseIdx (idxOfStr d l)) := by
  induction l with
  | nil => cases h
  | cons x xs ih =>
    by_cases hx : x = d
    · subst hx
      simp [idxOfStr, List.eraseIdx]
    · have hd : d ∈ xs := by
        cases List.mem_cons.mp h with
        | inl h1 => exact absurd h1.symm hx
        | inr h1 => exact h1
      simp only [idxOfStr, if_neg hx]
      rw [show (x :: xs).eraseIdx (idxOfStr d xs + 1) = x :: xs.eraseIdx (idxOfStr d xs) from rfl]
      exact ((ih hd).cons x).trans (List.Perm.swap d x _)

theorem jsIndexOf_ne_neg_one_iff (a : ElementId) (l : List ElementId) :
    ¬jsIndexOf a l = -1 ↔ a ∈ l := by
  unfold jsIndexOf
  by_cases h : a ∈ l
  · simp only [if_pos h]
    constructor
    · intro _; exact h
    · intro _; omega
  · simp [h]

theorem reorderedList_perm (l l' : List ElementId) (d t : ElementId)
    (pos : Bool) (h : reorderedList l d t pos = some l') : List.Perm l' l := by
  unfold reorderedList at h
  by_cases hg : jsIndexOf d l = -1 ∨ jsIndexOf t l = -1
  · rw [if_pos hg] at h
    exact Option.noConfusion h
  · rw [if_neg hg] at h
    have hd : d ∈ l := by
      rw [← jsIndexOf_ne_neg_one_iff]
      intro hc
      exact hg (Or.inl hc)
    have hsome : some (jsSpliceInsert (jsSpliceRemove1 l (jsIndexOf d l))
        (if pos then jsIndexOf t (jsSpliceRemove1 l (jsIndexOf d l))
         else jsIndexOf t (jsSpliceRemove1 l (jsIndexOf d l)) + 1) d) = some l' := h
    have hl' : l' = jsSpliceInsert (jsSpliceRemove1 l (jsIndexOf d l))
        (if pos then jsIndexOf t (jsSpliceRemove1 l (jsIndexOf d l))
         else jsIndexOf t (jsSpliceRemove1 l (jsIndexOf d l)) + 1) d :=
      (Option.some.injEq _ _ ▸ hsome).symm
    have hrm : jsSpliceRemove1 l (jsIndexOf d l) = l.eraseIdx (idxOfStr d l) := by
      rw [jsIndexOf_of_mem d l hd, jsSpliceRemove1_natCast]
    refine (hl' ▸ (jsSpliceInsert_perm _ _ _)).trans ?_
    rw [hrm]
    exact (eraseIdx_idxOfStr_perm d l hd).symm

/-- The tree well-formedness invariant of a document: the root order lists
exactly the live null-parent ids without duplicates, and every child link
is backed by a live element whose `parentId` points back at the parent. -/
structure WFDoc (d : DocState) : Prop where
  rootLive : ∀ id ∈ d.rootElementOrder,
      (lookupKey id d.elements).map DesignElement.parentId = some none
  rootComplete : ∀ kv ∈ d.elements, kv.2.parentId = none →
      kv.1 ∈ d.rootElementOrder
  rootNodup : d.rootElementOrder.Nodup
  childLive : ∀ p pe, lookupKey p d.elements = some pe → ∀ c ∈ pe.children,
      ∃ ce, lookupKey c d.elements = some ce ∧ ce.parentId = some p
  childNodup : ∀ p pe, lookupKey p d.elements = some pe → pe.children.Nodup

/-- C8's invariant as stated by the spec: `rootElementOrder` contains
exactly the ids of elements whose `parentId` is null, with no duplicates. -/
def RootInvariant (d : DocState) : Prop :=
  (∀ id ∈ d.rootElementOrder,
    (lookupKey id d.elements).map DesignElement.parentId = some none) ∧
  (∀ kv ∈ d.elements, kv.2.parentId = none → kv.1 ∈ d.rootElementOrder) ∧
  d.rootElementOrder.Nodup

theorem wfDoc_rootInvariant (d : DocState) (h : WFDoc d) : RootInvariant d :=
  ⟨h.rootLive, h.rootComplete, h.rootNodup⟩

theorem wf_congr (d1 d2 : DocState) (he : d1.elements = d2.elements)
    (hr : d1.rootElementOrder = d2.rootElementOrder) (h : WFDoc d1) :
    WFDoc d2 := by
  constructor
  · rw [← he, ← hr]; exact h.rootLive
  · rw [← he, ← hr]; exact h.rootComplete
  · rw [← hr]; exact h.rootNodup
  · rw [← he]; exact h.childLive
  · rw [← he]; exact h.childNodup

theorem parentIdMap_modifyEl (id : ElementId) (f : DesignElement → DesignElement)
    (els : ElementTable) (hf : ∀ e, (f e).parentId = e.parentId) (x : ElementId) :
    (lookupKey x (modifyEl id f els)).map DesignElement.parentId =
      (lookupKey x els).map DesignElement.parentId := by
  rw [lookupKey_modifyEl]
  by_cases hx : x = id
  · rw [if_pos hx, hx]
    cases h : lookupKey id els <;> simp [hf]
  · rw [if_neg hx]

/-- Modifications that keep both `parentId` and `children` (style and name
updates) preserve the tree invariant. -/
theorem wf_modify_keepPC (d : DocState) (id : ElementId)
    (f : DesignElement → DesignElement)
    (hf : ∀ e, (f e).parentId = e.parentId ∧ (f e).children = e.children)
    (h : WFDoc d) : WFDoc { d with elements := modifyEl id f d.elements } := by
  constructor
  · intro i hi
    show (lookupKey i (modifyEl id f d.elements)).map _ = _
    rw [parentIdMap_modifyEl id f d.elements (fun e => (hf e).1)]
    exact h.rootLive i hi
  · intro kv hkv hp
    obtain ⟨v0, hv0, hcase⟩ := mem_modifyEl kv id f d.elements hkv
    have hpar : v0.parentId = none := by
      rcases hcase with hc | ⟨_, hc⟩
      · rw [← hc]; exact hp
      · rw [← (hf v0).1, ← hc]; exact hp
    exact h.rootComplete (kv.1, v0) hv0 hpar
  · exact h.rootNodup
  · intro p pe hpe c hc
    rw [show ({ d with elements := modifyEl id f d.elements } : DocState).elements =
      modifyEl id f d.elements from rfl, lookupKey_modifyEl] at hpe
    have hlook : ∃ pe0, lookupKey p d.elements = some pe0 ∧
        pe.children = pe0.children := by
      by_cases hp : p = id
      · subst hp
        rw [if_pos rfl] at hpe
        cases hl : lookupKey p d.elements with
        | none => rw [hl] at hpe; exact Option.noConfusion hpe
        | some pe0 =>
          rw [hl] at hpe
          have hpe' : pe = f pe0 := by simpa using hpe.symm
          exact ⟨pe0, rfl, by rw [hpe', (hf pe0).2]⟩
      · rw [if_neg hp] at hpe
        exact ⟨pe, hpe, rfl⟩
    obtain ⟨pe0, hpe0, hch⟩ := hlook
    rw [hch] at hc
    obtain ⟨ce, hce, hcp⟩ := h.childLive p pe0 hpe0 c hc
    show ∃ ce', lookupKey c (modifyEl id f d.elements) = some ce' ∧ _
    rw [lookupKey_modifyEl]
    by_cases hcid : c = id
    · subst hcid
      rw [if_pos rfl, hce]
      exact ⟨f ce, rfl, by rw [(hf ce).1]; exact hcp⟩
    · rw [if_neg hcid]
      exact ⟨ce, hce, hcp⟩
  · intro p pe hpe
    rw [show ({ d with elements := modifyEl id f d.elements } : DocState).elements =
      modifyEl id f d.elements from rfl, lookupKey_modifyEl] at hpe
    by_cases hp : p = id
    · subst hp
      rw [if_pos rfl] at hpe
      cases hl : lookupKey p d.elements with
      | none => rw [hl] at hpe; exact Option.noConfusion hpe
      | some pe0 =>
        rw [hl] at hpe
        have hpe' : pe = f pe0 := by simpa using hpe.symm
        rw [hpe', (hf pe0).2]
        exact h.childNodup p pe0 hl
    · rw [if_neg hp] at hpe
      exact h.childNodup p pe hpe

theorem lookup_map_parentId_exists {els : ElementTable} {x p : ElementId}
    (h : (lookupKey x els).map DesignElement.parentId = some (some p)) :
    ∃ ce, lookupKey x els = some ce ∧ ce.parentId = some p := by
  cases hl : lookupKey x els with
  | none => rw [hl] at h; exact Option.noConfusion h
  | some ce =>
    rw [hl] at h
    exact ⟨ce, rfl, by simpa using h⟩

theorem wf_addElementDoc (s : EditorState) (el : DesignElement)
    (pid : Option ElementId) (tidx : Option Int)
    (hwf : WFDoc (docOf s)) (hfresh : lookupKey el.id s.elements = none)
    (hpar : ∀ p, pid = some p → (lookupKey p s.elements).isSome) :
    WFDoc (addElementDoc el pid tidx s) := by
  have hRL : ∀ i ∈ s.rootElementOrder,
      (lookupKey i s.elements).map DesignElement.parentId = some none :=
    hwf.rootLive
  have hRC : ∀ kv ∈ s.elements, kv.2.parentId = none →
      kv.1 ∈ s.rootElementOrder := hwf.rootComplete
  have hRN : s.rootElementOrder.Nodup := hwf.rootNodup
  have hCL : ∀ p pe, lookupKey p s.elements = some pe → ∀ c ∈ pe.children,
      ∃ ce, lookupKey c s.elements = some ce ∧ ce.parentId = some p :=
    hwf.childLive
  have hCN : ∀ p pe, lookupKey p s.elements = some pe → pe.children.Nodup :=
    hwf.childNodup
  have hroLive : ∀ i ∈ s.rootElementOrder, i ≠ el.id := by
    intro i hi hc
    have := hRL i hi
    rw [hc, hfresh] at this
    exact Option.noConfusion this
  have hfreshro : el.id ∉ s.rootElementOrder := fun hc => hroLive el.id hc rfl
  cases pid with
  | none =>
    have heq : addElementDoc el none tidx s =
        { docOf s with
          elements := putEl s.elements el.id
            { el with parentId := none, children := [] }
          rootElementOrder :=
            jsSpliceInsertOpt s.rootElementOrder tidx el.id } := rfl
    rw [heq]
    have hmem : ∀ i, i ∈ jsSpliceInsertOpt s.rootElementOrder tidx el.id ↔
        i = el.id ∨ i ∈ s.rootElementOrder := by
      intro i
      rw [(jsSpliceInsertOpt_perm s.rootElementOrder tidx el.id).mem_iff]
      simp
    constructor
    · intro i hi
      show (lookupKey i (putEl s.elements el.id _)).map _ = _
      rw [lookupKey_putEl]
      rcases (hmem i).mp hi with hi' | hi'
      · rw [if_pos hi']
        rfl
      · rw [if_neg (hroLive i hi')]
        exact hRL i hi'
    · intro kv hkv hp
      rw [show ({ docOf s with
          elements := putEl s.elements el.id { el with parentId := none, children := [] },
          rootElementOrder := jsSpliceInsertOpt s.rootElementOrder tidx el.id } : DocState).elements =
            putEl s.elements el.id { el with parentId := none, children := [] } from rfl,
        mem_putEl_of_fresh _ _ _ _ hfresh] at hkv
      rcases hkv with hkv | hkv
      · rw [hmem]
        left
        rw [hkv]
      · rw [hmem]
        right
        exact hRC kv hkv hp
    · exact ((jsSpliceInsertOpt_perm s.rootElementOrder tidx el.id).nodup_iff).mpr
        (List.nodup_cons.mpr ⟨hfreshro, hRN⟩)
    · intro p pe hpe c hc
      show ∃ ce, lookupKey c (putEl s.elements el.id _) = some ce ∧ _
      rw [lookupKey_putEl]
      rw [show ({ docOf s with
          elements := putEl s.elements el.id { el with parentId := none, children := [] },
          rootElementOrder := jsSpliceInsertOpt s.rootElementOrder tidx el.id } : DocState).elements =
            putEl s.elements el.id { el with parentId := none, children := [] } from rfl,
        lookupKey_putEl] at hpe
      by_cases hp : p = el.id
      · rw [if_pos hp] at hpe
        have : pe = { el with parentId := none, children := [] } := by
          simpa using hpe.symm
        rw [this] at hc
        simp at hc
      · rw [if_neg hp] at hpe
        obtain ⟨ce, hce, hcp⟩ := hCL p pe hpe c hc
        have hcne : ¬c = el.id := by
          intro hc'
          rw [hc', hfresh] at hce
          exact Option.noConfusion hce
        rw [if_neg hcne]
        exact ⟨ce, hce, hcp⟩
    · intro p pe hpe
      rw [show ({ docOf s with
          elements := putEl s.elements el.id { el with parentId := none, children := [] },
          rootElementOrder := jsSpliceInsertOpt s.rootElementOrder tidx el.id } : DocState).elements =
            putEl s.elements el.id { el with parentId := none, children := [] } from rfl,
        lookupKey_putEl] at hpe
      by_cases hp : p = el.id
      · rw [if_pos hp] at hpe
        have : pe = { el with parentId := none, children := [] } := by
          simpa using hpe.symm
        rw [this]
        simp
      · rw [if_neg hp] at hpe
        exact hCN p pe hpe
  | some p =>
    have hpl := hpar p rfl
    have hpne : ¬p = el.id := by
      intro hc
      rw [hc, hfresh] at hpl
      simp at hpl
    have hlp1 : lookupKey p (putEl s.elements el.id
        { el with parentId := some p, children := [] }) = lookupKey p s.elements := by
      rw [lookupKey_putEl, if_neg hpne]
    have hsome1 : (lookupKey p (putEl s.elements el.id
        { el with parentId := some p, children := [] })).isSome := by
      rw [hlp1]; exact hpl
    have heq : addElementDoc el (some p) tidx s =
        { docOf s with
          elements := modifyChildren p
            (fun ch => jsSpliceInsertOpt ch tidx el.id)
            (putEl s.elements el.id { el with parentId := some p, children := [] }) } := by
      unfold addElementDoc
      simp only []
      rw [if_pos hsome1]
    rw [heq]
    obtain ⟨pe, hpe⟩ := Option.isSome_iff_exists.mp hpl
    have hparmap : ∀ x,
        (lookupKey x (modifyChildren p (fun ch => jsSpliceInsertOpt ch tidx el.id)
          (putEl s.elements el.id { el with parentId := some p, children := [] }))).map
            DesignElement.parentId =
        (lookupKey x (putEl s.elements el.id
          { el with parentId := some p, children := [] })).map DesignElement.parentId := by
      intro x
      exact parentIdMap_modifyEl p
        (fun e => { e with children := jsSpliceInsertOpt e.children tidx el.id })
        (putEl s.elements el.id { el with parentId := some p, children := [] })
        (fun e => rfl) x
    constructor
    · intro i hi
      show (lookupKey i _).map _ = _
      rw [hparmap i, lookupKey_putEl, if_neg (hroLive i hi)]
      exact hRL i hi
    · intro kv hkv hp'
      obtain ⟨v0, hv0, hcase⟩ := mem_modifyEl kv p _ _ hkv
      have hv0p : v0.parentId = none := by
        rcases hcase with hc | ⟨_, hc⟩
        · rw [← hc]; exact hp'
        · rw [show kv.2.parentId =
            ({ v0 with children := jsSpliceInsertOpt v0.children tidx el.id } : DesignElement).parentId
            from by rw [hc]] at hp'
          exact hp'
      rw [mem_putEl_of_fresh _ _ _ _ hfresh] at hv0
      rcases hv0 with hv0 | hv0
      · exfalso
        have h1 : kv.1 = el.id := congrArg Prod.fst hv0
        have h2 : v0 = { el with parentId := some p, children := [] } :=
          congrArg Prod.snd hv0
        rw [h2] at hv0p
        exact Option.noConfusion hv0p
      · exact hRC (kv.1, v0) hv0 hv0p
    · exact hRN
    · intro q qe hqe c hc
      have hchildren : (c = el.id ∧ q = p) ∨
          (∃ qe0, lookupKey q s.elements = some qe0 ∧ c ∈ qe0.children) := by
        rw [show ({ docOf s with
            elements := modifyChildren p (fun ch => jsSpliceInsertOpt ch tidx el.id)
              (putEl s.elements el.id { el with parentId := some p, children := [] }) } :
              DocState).elements =
            modifyChildren p (fun ch => jsSpliceInsertOpt ch tidx el.id)
              (putEl s.elements el.id { el with parentId := some p, children := [] })
            from rfl] at hqe
        rw [show modifyChildren p (fun ch => jsSpliceInsertOpt ch tidx el.id)
            (putEl s.elements el.id { el with parentId := some p, children := [] }) =
          modifyEl p (fun e => { e with
            children := jsSpliceInsertOpt e.children tidx el.id })
            (putEl s.elements el.id { el with parentId := some p, children := [] })
          from rfl, lookupKey_modifyEl] at hqe
        by_cases hq : q = p
        · subst hq
          rw [if_pos rfl, hlp1, hpe] at hqe
          have hqe' : qe = { pe with
              children := jsSpliceInsertOpt pe.children tidx el.id } := by
            simpa using hqe.symm
          rw [hqe'] at hc
          have hmem := (jsSpliceInsertOpt_perm pe.children tidx el.id).mem_iff.mp hc
          rcases List.mem_cons.mp hmem with h1 | h1
          · exact Or.inl ⟨h1, rfl⟩
          · exact Or.inr ⟨pe, hpe, h1⟩
        · rw [if_neg hq, lookupKey_putEl] at hqe
          by_cases hq2 : q = el.id
          · rw [if_pos hq2] at hqe
            have : qe = { el with parentId := some p, children := [] } := by
              simpa using hqe.symm
            rw [this] at hc
            simp at hc
          · rw [if_neg hq2] at hqe
            exact Or.inr ⟨qe, hqe, hc⟩
      rcases hchildren with ⟨hc1, hq1⟩ | ⟨qe0, hqe0, hc0⟩
      · subst hc1
        subst hq1
        refine lookup_map_parentId_exists ?_
        rw [hparmap el.id, lookupKey_putEl, if_pos rfl]
        rfl
      · obtain ⟨ce, hce, hcp⟩ := hCL q qe0 hqe0 c hc0
        refine lookup_map_parentId_exists ?_
        have hcne : ¬c = el.id := by
          intro hc'
          rw [hc', hfresh] at hce
          exact Option.noConfusion hce
        rw [hparmap c, lookupKey_putEl, if_neg hcne, hce]
        simp [hcp]
    · intro q qe hqe
      rw [show ({ docOf s with
          elements := modifyChildren p (fun ch => jsSpliceInsertOpt ch tidx el.id)
            (putEl s.elements el.id { el with parentId := some p, children := [] }) } :
            DocState).elements =
          modifyEl p (fun e => { e with
            children := jsSpliceInsertOpt e.children tidx el.id })
            (putEl s.elements el.id { el with parentId := some p, children := [] })
          from rfl, lookupKey_modifyEl] at hqe
      by_cases hq : q = p
      · subst hq
        rw [if_pos rfl, hlp1, hpe] at hqe
        have hqe' : qe = { pe with
            children := jsSpliceInsertOpt pe.children tidx el.id } := by
          simpa using hqe.symm
        rw [hqe']
        show (jsSpliceInsertOpt pe.children tidx el.id).Nodup
        rw [(jsSpliceInsertOpt_perm pe.children tidx el.id).nodup_iff]
        refine List.nodup_cons.mpr ⟨?_, hCN q pe hpe⟩
        intro hmem
        obtain ⟨ce, hce, _⟩ := hCL q pe hpe el.id hmem
        rw [hfresh] at hce
        exact Option.noConfusion hce
      · rw [if_neg hq, lookupKey_putEl] at hqe
        by_cases hq2 : q = el.id
        · rw [if_pos hq2] at hqe
          have : qe = { el with parentId := some p, children := [] } := by
            simpa using hqe.symm
          rw [this]
          simp
        · rw [if_neg hq2] at hqe
          exact hCN q qe hqe

/-- Precise membership in a `modifyEl` table: every entry comes from an
entry of the original table, mapped exactly when its key matches. -/
theorem mem_modifyEl_eq (kv : ElementId × DesignElement) (id : ElementId)
    (f : DesignElement → DesignElement) (els : ElementTable) :
    kv ∈ modifyEl id f els →
      ∃ v0, (kv.1, v0) ∈ els ∧ kv.2 = if kv.1 = id then f v0 else v0 := by
  induction els with
  | nil => simp [modifyEl]
  | cons kv' rest ih =>
    obtain ⟨k', v'⟩ := kv'
    simp only [modifyEl, List.mem_cons]
    by_cases hk : k' = id
    · rw [if_pos hk]
      rintro (h | h)
      · subst h
        exact ⟨v', Or.inl rfl, by rw [if_pos hk]⟩
      · obtain ⟨v0, h1, h2⟩ := ih h
        exact ⟨v0, Or.inr h1, h2⟩
    · rw [if_neg hk]
      rintro (h | h)
      · subst h
        exact ⟨v', Or.inl rfl, by rw [if_neg hk]⟩
      · obtain ⟨v0, h1, h2⟩ := ih h
        exact ⟨v0, Or.inr h1, h2⟩

/-- `getAllDescendantIds` at a dead id returns nothing. -/
theorem getAllDescendantIds_dead (fuel : Nat) (r : ElementId)
    (els : ElementTable) (h : lookupKey r els = none) :
    getAllDescendantIds (fuel + 1) r els = [] := by
  rw [getAllDescendantIds, h]

/-- `getAllDescendantIds` at a live id, unfolded one step. -/
theorem getAllDescendantIds_live (fuel : Nat) (r : ElementId)
    (els : ElementTable) (element : DesignElement)
    (h : lookupKey r els = some element) :
    getAllDescendantIds (fuel + 1) r els =
      if element.children = [] then []
      else element.children ++
        element.children.flatMap (fun childId =>
          getAllDescendantIds fuel childId els) := by
  rw [getAllDescendantIds, h]

/-- Every id returned by `getAllDescendantIds` appears in the `children`
list of the root or of another returned id. -/
theorem mem_desc_child (fuel : Nat) (r : ElementId) (els : ElementTable)
    (d : ElementId) (hd : d ∈ getAllDescendantIds fuel r els) :
    ∃ p0, (p0 = r ∨ p0 ∈ getAllDescendantIds fuel r els) ∧
      ∃ pe0, lookupKey p0 els = some pe0 ∧ d ∈ pe0.children := by
  induction fuel generalizing r with
  | zero => simp [getAllDescendantIds] at hd
  | succ fuel ih =>
    cases hl : lookupKey r els with
    | none => rw [getAllDescendantIds_dead fuel r els hl] at hd; simp at hd
    | some element =>
      rw [getAllDescendantIds_live fuel r els element hl] at hd
      by_cases hch : element.children = []
      · rw [if_pos hch] at hd; simp at hd
      · rw [if_neg hch] at hd
        rcases List.mem_append.mp hd with h1 | h1
        · exact ⟨r, Or.inl rfl, element, hl, h1⟩
        · obtain ⟨ch, hch1, hch2⟩ := List.mem_flatMap.mp h1
          obtain ⟨p0, hp0, pe0, hpe0, hdc⟩ := ih ch hch2
          refine ⟨p0, Or.inr ?_, pe0, hpe0, hdc⟩
          rw [getAllDescendantIds_live fuel r els element hl, if_neg hch]
          rcases hp0 with h | h
          · subst h
            exact List.mem_append.mpr (Or.inl hch1)
          · exact List.mem_append.mpr (Or.inr (List.mem_flatMap.mpr ⟨ch, hch1, h⟩))

/-- Every deleted id is the deleted root itself or a child of another
deleted id. -/
theorem mem_allIdsToDelete_cases (A : ElementId) (s : EditorState)
    (d : ElementId) (hd : d ∈ allIdsToDelete A s) :
    d = A ∨ ∃ p0, p0 ∈ allIdsToDelete A s ∧ ∃ pe0,
      lookupKey p0 s.elements = some pe0 ∧ d ∈ pe0.children := by
  rcases List.mem_cons.mp hd with h | h
  · exact Or.inl h
  · obtain ⟨p0, hp0, pe0, hpe0, hdc⟩ :=
      mem_desc_child (s.elements.length + 1) A s.elements d h
    refine Or.inr ⟨p0, ?_, pe0, hpe0, hdc⟩
    rcases hp0 with h1 | h1
    · exact List.mem_cons.mpr (Or.inl h1)
    · exact List.mem_cons.mpr (Or.inr h1)

/-- In a document whose child links all have back-pointers, the parent of
any live deleted id other than the deleted root is itself deleted. -/
theorem delete_set_closed (s : EditorState) (A : ElementId)
    (hCL : ∀ p pe, lookupKey p s.elements = some pe → ∀ c ∈ pe.children,
      ∃ ce, lookupKey c s.elements = some ce ∧ ce.parentId = some p)
    (d : ElementId) (de : DesignElement)
    (hde : lookupKey d s.elements = some de)
    (hdS : d ∈ allIdsToDelete A s) (hdA : d ≠ A) :
    ∃ p0, p0 ∈ allIdsToDelete A s ∧ de.parentId = some p0 := by
  rcases mem_allIdsToDelete_cases A s d hdS with h | ⟨p0, hp0S, pe0, hpe0, hdc⟩
  · exact absurd h hdA
  · obtain ⟨ce, hce, hcp⟩ := hCL p0 pe0 hpe0 d hdc
    rw [hde] at hce
    refine ⟨p0, hp0S, ?_⟩
    rw [Option.some.inj hce]
    exact hcp

/-- Core preservation lemma for `deleteElement`: erasing the deleted set
from a table that agrees with the source table on parent pointers and only
shrinks children lists (with the deleted root detached from its parent)
preserves the tree invariant. -/
theorem wf_delete_core (s : EditorState) (A : ElementId) (eA : DesignElement)
    (hwf : WFDoc (docOf s)) (hA : lookupKey A s.elements = some eA)
    (els1 : ElementTable) (ro1 : List ElementId) (sel1 : Option ElementId)
    (hE1 : ∀ x, (lookupKey x els1).map DesignElement.parentId =
        (lookupKey x s.elements).map DesignElement.parentId)
    (hE2 : ∀ kv ∈ els1, ∃ v0, (kv.1, v0) ∈ s.elements ∧
        kv.2.parentId = v0.parentId)
    (hE3 : ∀ p pe, lookupKey p els1 = some pe → ∃ pe0,
        lookupKey p s.elements = some pe0 ∧
        (∀ x ∈ pe.children, x ∈ pe0.children) ∧
        (pe0.children.Nodup → pe.children.Nodup) ∧
        (A ∈ pe.children → eA.parentId ≠ some p))
    (hR1 : ∀ x ∈ ro1, x ∈ s.rootElementOrder)
    (hR2 : ro1.Nodup)
    (hR3 : ∀ x ∈ s.rootElementOrder, x ∉ allIdsToDelete A s → x ∈ ro1)
    (hR4 : A ∉ ro1) :
    WFDoc { elements := (allIdsToDelete A s).foldl (fun acc k => eraseKey k acc) els1, selectedElementId := sel1, rootElementOrder := ro1 } := by
  have hRL : ∀ i ∈ s.rootElementOrder,
      (lookupKey i s.elements).map DesignElement.parentId = some none :=
    hwf.rootLive
  have hRC : ∀ kv ∈ s.elements, kv.2.parentId = none →
      kv.1 ∈ s.rootElementOrder := hwf.rootComplete
  have hCL : ∀ p pe, lookupKey p s.elements = some pe → ∀ c ∈ pe.children,
      ∃ ce, lookupKey c s.elements = some ce ∧ ce.parentId = some p :=
    hwf.childLive
  have hCN : ∀ p pe, lookupKey p s.elements = some pe → pe.children.Nodup :=
    hwf.childNodup
  constructor
  · intro i hi
    have hiro := hR1 i hi
    have hmap := hRL i hiro
    have hiA : i ≠ A := fun h => hR4 (h ▸ hi)
    have hiS : i ∉ allIdsToDelete A s := by
      intro hiS
      obtain ⟨ie, hie, hip⟩ : ∃ ie, lookupKey i s.elements = some ie ∧
          ie.parentId = none := by
        cases hl : lookupKey i s.elements with
        | none => rw [hl] at hmap; exact Option.noConfusion hmap
        | some ie => rw [hl] at hmap; exact ⟨ie, rfl, Option.some.inj hmap⟩
      obtain ⟨p0, _, hp0⟩ := delete_set_closed s A hCL i ie hie hiS hiA
      rw [hip] at hp0
      exact Option.noConfusion hp0
    show (lookupKey i ((allIdsToDelete A s).foldl (fun acc k => eraseKey k acc)
      els1)).map DesignElement.parentId = some none
    rw [lookupKey_eraseFold, if_neg hiS, hE1]
    exact hmap
  · intro kv hkv hp
    obtain ⟨hkv1, hkvS⟩ := (mem_eraseFold (allIdsToDelete A s) kv els1).mp hkv
    obtain ⟨v0, hv0, hpeq⟩ := hE2 kv hkv1
    have hv0p : v0.parentId = none := by rw [← hpeq]; exact hp
    exact hR3 kv.1 (hRC (kv.1, v0) hv0 hv0p) hkvS
  · exact hR2
  · intro p pe hpe c hc
    have hpe2 : lookupKey p ((allIdsToDelete A s).foldl
        (fun acc k => eraseKey k acc) els1) = some pe := hpe
    rw [lookupKey_eraseFold] at hpe2
    by_cases hpS : p ∈ allIdsToDelete A s
    · rw [if_pos hpS] at hpe2; exact Option.noConfusion hpe2
    · rw [if_neg hpS] at hpe2
      obtain ⟨pe0, hpe0, hsub, hnd, hAch⟩ := hE3 p pe hpe2
      obtain ⟨ce, hce, hcp⟩ := hCL p pe0 hpe0 c (hsub c hc)
      have hcS : c ∉ allIdsToDelete A s := by
        intro hcS
        by_cases hcA : c = A
        · subst hcA
          have hce' := hce
          rw [hA] at hce'
          exact hAch hc (by rw [Option.some.inj hce']; exact hcp)
        · obtain ⟨p0, hp0S, hp0⟩ := delete_set_closed s A hCL c ce hce hcS hcA
          rw [hcp] at hp0
          exact hpS ((Option.some.inj hp0) ▸ hp0S)
      refine lookup_map_parentId_exists ?_
      show (lookupKey c ((allIdsToDelete A s).foldl (fun acc k => eraseKey k acc)
        els1)).map DesignElement.parentId = some (some p)
      rw [lookupKey_eraseFold, if_neg hcS, hE1, hce]
      rw [show (some ce).map DesignElement.parentId = some ce.parentId from rfl,
        hcp]
  · intro p pe hpe
    have hpe2 : lookupKey p ((allIdsToDelete A s).foldl
        (fun acc k => eraseKey k acc) els1) = some pe := hpe
    rw [lookupKey_eraseFold] at hpe2
    by_cases hpS : p ∈ allIdsToDelete A s
    · rw [if_pos hpS] at hpe2; exact Option.noConfusion hpe2
    · rw [if_neg hpS] at hpe2
      obtain ⟨pe0, hpe0, _, hnd, _⟩ := hE3 p pe hpe2
      exact hnd (hCN p pe0 hpe0)

/-- `deleteElement` on a live id preserves the tree invariant. -/
theorem wf_deleteElementDoc (s : EditorState) (A : ElementId)
    (eA : DesignElement) (hwf : WFDoc (docOf s))
    (hA : lookupKey A s.elements = some eA) :
    WFDoc (deleteElementDoc A s eA) := by
  have hRL : ∀ i ∈ s.rootElementOrder,
      (lookupKey i s.elements).map DesignElement.parentId = some none :=
    hwf.rootLive
  have hRN : s.rootElementOrder.Nodup := hwf.rootNodup
  have hCL : ∀ p pe, lookupKey p s.elements = some pe → ∀ c ∈ pe.children,
      ∃ ce, lookupKey c s.elements = some ce ∧ ce.parentId = some p :=
    hwf.childLive
  cases hop : eA.parentId with
  | none =>
    have hE3 : ∀ p pe, lookupKey p s.elements = some pe → ∃ pe0,
        lookupKey p s.elements = some pe0 ∧
        (∀ x ∈ pe.children, x ∈ pe0.children) ∧
        (pe0.children.Nodup → pe.children.Nodup) ∧
        (A ∈ pe.children → eA.parentId ≠ some p) := by
      intro p pe hpe
      exact ⟨pe, hpe, fun x hx => hx, fun h => h,
        fun _ => by rw [hop]; exact fun hc => Option.noConfusion hc⟩
    have hR3 : ∀ x ∈ s.rootElementOrder, x ∉ allIdsToDelete A s →
        x ∈ s.rootElementOrder.filter (· ≠ A) := by
      intro x hx hxS
      refine List.mem_filter.mpr ⟨hx, ?_⟩
      have hxA : x ≠ A := fun h => hxS (h ▸ List.mem_cons_self _ _)
      simpa using hxA
    have hR4 : A ∉ s.rootElementOrder.filter (· ≠ A) := by
      intro h
      have := (List.mem_filter.mp h).2
      simp at this
    have hcore := wf_delete_core s A eA hwf hA s.elements
      (s.rootElementOrder.filter (· ≠ A)) none (fun x => rfl)
      (fun kv h => ⟨kv.2, h, rfl⟩) hE3
      (fun x hx => (List.mem_filter.mp hx).1) (hRN.filter _) hR3 hR4
    refine wf_congr _ _ ?_ ?_ hcore
    · show (allIdsToDelete A s).foldl (fun acc k => eraseKey k acc) s.elements =
        (deleteElementDoc A s eA).elements
      simp [deleteElementDoc, hop]
    · show s.rootElementOrder.filter (· ≠ A) =
        (deleteElementDoc A s eA).rootElementOrder
      simp [deleteElementDoc, hop]
  | some q =>
    have hR4 : A ∉ s.rootElementOrder := by
      intro h
      have hmap := hRL A h
      rw [hA] at hmap
      have h2 : eA.parentId = none := Option.some.inj hmap
      rw [hop] at h2
      exact Option.noConfusion h2
    by_cases hq : (lookupKey q s.elements).isSome = true
    · obtain ⟨qe, hqe⟩ := Option.isSome_iff_exists.mp hq
      have hE1 : ∀ x, (lookupKey x (modifyChildren q
          (fun ch => ch.filter (· ≠ A)) s.elements)).map DesignElement.parentId =
          (lookupKey x s.elements).map DesignElement.parentId := by
        intro x
        exact parentIdMap_modifyEl q
          (fun e => { e with children := e.children.filter (· ≠ A) })
          s.elements (fun e => rfl) x
      have hE2 : ∀ kv ∈ modifyChildren q (fun ch => ch.filter (· ≠ A))
          s.elements, ∃ v0, (kv.1, v0) ∈ s.elements ∧
          kv.2.parentId = v0.parentId := by
        intro kv hkv
        obtain ⟨v0, hv0, heq⟩ := mem_modifyEl_eq kv q
          (fun e => { e with children := e.children.filter (· ≠ A) })
          s.elements hkv
        refine ⟨v0, hv0, ?_⟩
        rw [heq]
        by_cases h : kv.1 = q
        · rw [if_pos h]
        · rw [if_neg h]
      have hE3 : ∀ p pe, lookupKey p (modifyChildren q
          (fun ch => ch.filter (· ≠ A)) s.elements) = some pe → ∃ pe0,
          lookupKey p s.elements = some pe0 ∧
          (∀ x ∈ pe.children, x ∈ pe0.children) ∧
          (pe0.children.Nodup → pe.children.Nodup) ∧
          (A ∈ pe.children → eA.parentId ≠ some p) := by
        intro p pe hpe
        have hpe2 : lookupKey p (modifyEl q
            (fun e => { e with children := e.children.filter (· ≠ A) })
            s.elements) = some pe := hpe
        rw [lookupKey_modifyEl] at hpe2
        by_cases hp : p = q
        · rw [if_pos hp] at hpe2
          subst hp
          rw [hqe] at hpe2
          have hpe3 : pe = { qe with children := qe.children.filter (· ≠ A) } := by
            simpa using hpe2.symm
          refine ⟨qe, hqe, ?_, ?_, ?_⟩
          · intro x hx
            rw [hpe3] at hx
            exact (List.mem_filter.mp hx).1
          · intro hnd
            rw [hpe3]
            exact hnd.filter _
          · intro hAc
            rw [hpe3] at hAc
            have := (List.mem_filter.mp hAc).2
            simp at this
        · rw [if_neg hp] at hpe2
          refine ⟨pe, hpe2, fun x hx => hx, fun h => h, ?_⟩
          intro _ hcontra
          rw [hop] at hcontra
          exact hp (Option.some.inj hcontra).symm
      have hcore := wf_delete_core s A eA hwf hA
        (modifyChildren q (fun ch => ch.filter (· ≠ A)) s.elements)
        s.rootElementOrder none hE1 hE2 hE3 (fun x hx => hx) hRN
        (fun x hx _ => hx) hR4
      refine wf_congr _ _ ?_ ?_ hcore
      · show (allIdsToDelete A s).foldl (fun acc k => eraseKey k acc)
          (modifyChildren q (fun ch => ch.filter (· ≠ A)) s.elements) =
          (deleteElementDoc A s eA).elements
        simp [deleteElementDoc, hop, hq]
      · show s.rootElementOrder = (deleteElementDoc A s eA).rootElementOrder
        simp [deleteElementDoc, hop]
    · have hqn : lookupKey q s.elements = none := by
        cases hl : lookupKey q s.elements with
        | none => rfl
        | some v => rw [hl] at hq; simp at hq
      have hE3 : ∀ p pe, lookupKey p s.elements = some pe → ∃ pe0,
          lookupKey p s.elements = some pe0 ∧
          (∀ x ∈ pe.children, x ∈ pe0.children) ∧
          (pe0.children.Nodup → pe.children.Nodup) ∧
          (A ∈ pe.children → eA.parentId ≠ some p) := by
        intro p pe hpe
        refine ⟨pe, hpe, fun x hx => hx, fun h => h, ?_⟩
        intro _ hcontra
        rw [hop] at hcontra
        rw [← Option.some.inj hcontra, hqn] at hpe
        exact Option.noConfusion hpe
      have hcore := wf_delete_core s A eA hwf hA s.elements s.rootElementOrder
        none (fun x => rfl) (fun kv h => ⟨kv.2, h, rfl⟩) hE3
        (fun x hx => hx) hRN (fun x hx _ => hx) hR4
      refine wf_congr _ _ ?_ ?_ hcore
      · show (allIdsToDelete A s).foldl (fun acc k => eraseKey k acc)
          s.elements = (deleteElementDoc A s eA).elements
        simp [deleteElementDoc, hop, hqn]
      · show s.rootElementOrder = (deleteElementDoc A s eA).rootElementOrder
        simp [deleteElementDoc, hop]

/-- Core preservation lemma for `setParent(c, null)`: re-rooting a detached
element (removed from every children list and from the root order)
preserves the tree invariant. -/
theorem wf_move_root (s : EditorState) (c : ElementId) (child1 : DesignElement)
    (els1 : ElementTable) (ro1 : List ElementId) (sel : Option ElementId)
    (tidx : Option Int)
    (hwf : WFDoc (docOf s))
    (hc1 : lookupKey c els1 = some child1)
    (hE1 : ∀ x, (lookupKey x els1).map DesignElement.parentId =
        (lookupKey x s.elements).map DesignElement.parentId)
    (hE2 : ∀ kv ∈ els1, ∃ v0, (kv.1, v0) ∈ s.elements ∧
        kv.2.parentId = v0.parentId)
    (hE3 : ∀ p pe, lookupKey p els1 = some pe → ∃ pe0,
        lookupKey p s.elements = some pe0 ∧
        (∀ x ∈ pe.children, x ∈ pe0.children) ∧
        (pe0.children.Nodup → pe.children.Nodup))
    (hE4 : ∀ p pe, lookupKey p els1 = some pe → c ∉ pe.children)
    (hR1 : ∀ x ∈ ro1, x ∈ s.rootElementOrder)
    (hR2 : ro1.Nodup)
    (hR3 : ∀ x ∈ s.rootElementOrder, x ≠ c → x ∈ ro1)
    (hR4 : c ∉ ro1) :
    WFDoc { elements := modifyEl c (fun e => { e with parentId := none }) els1, selectedElementId := sel, rootElementOrder := jsSpliceInsertOpt ro1 tidx c } := by
  have hRL : ∀ i ∈ s.rootElementOrder,
      (lookupKey i s.elements).map DesignElement.parentId = some none :=
    hwf.rootLive
  have hRC : ∀ kv ∈ s.elements, kv.2.parentId = none →
      kv.1 ∈ s.rootElementOrder := hwf.rootComplete
  have hCL : ∀ p pe, lookupKey p s.elements = some pe → ∀ c ∈ pe.children,
      ∃ ce, lookupKey c s.elements = some ce ∧ ce.parentId = some p :=
    hwf.childLive
  have hCN : ∀ p pe, lookupKey p s.elements = some pe → pe.children.Nodup :=
    hwf.childNodup
  have hlc : lookupKey c (modifyEl c (fun e => { e with parentId := none })
      els1) = some { child1 with parentId := none } := by
    rw [lookupKey_modifyEl, if_pos rfl, hc1]
    rfl
  have hother : ∀ x, x ≠ c → lookupKey x (modifyEl c
      (fun e => { e with parentId := none }) els1) = lookupKey x els1 := by
    intro x hx
    rw [lookupKey_modifyEl, if_neg hx]
  constructor
  · intro i hi
    have hi2 := (jsSpliceInsertOpt_perm ro1 tidx c).mem_iff.mp hi
    rcases List.mem_cons.mp hi2 with h | h
    · subst h
      show (lookupKey i (modifyEl i (fun e => { e with parentId := none })
        els1)).map DesignElement.parentId = some none
      rw [hlc]
      rfl
    · have hic : i ≠ c := fun hh => hR4 (hh ▸ h)
      show (lookupKey i (modifyEl c (fun e => { e with parentId := none })
        els1)).map DesignElement.parentId = some none
      rw [hother i hic, hE1]
      exact hRL i (hR1 i h)
  · intro kv hkv hp
    by_cases hkc : kv.1 = c
    · show kv.1 ∈ jsSpliceInsertOpt ro1 tidx c
      refine (jsSpliceInsertOpt_perm ro1 tidx c).mem_iff.mpr ?_
      exact List.mem_cons.mpr (Or.inl hkc)
    · obtain ⟨v0, hv0, heq⟩ := mem_modifyEl_eq kv c
        (fun e => { e with parentId := none }) els1 hkv
      rw [if_neg hkc] at heq
      obtain ⟨v1, hv1, hpeq⟩ := hE2 (kv.1, v0) hv0
      have hv1p : v1.parentId = none := by
        rw [← hpeq]
        show v0.parentId = none
        rw [← heq]
        exact hp
      have := hRC (kv.1, v1) hv1 hv1p
      show kv.1 ∈ jsSpliceInsertOpt ro1 tidx c
      refine (jsSpliceInsertOpt_perm ro1 tidx c).mem_iff.mpr ?_
      exact List.mem_cons.mpr (Or.inr (hR3 kv.1 this hkc))
  · exact (jsSpliceInsertOpt_perm ro1 tidx c).nodup_iff.mpr
      (List.nodup_cons.mpr ⟨hR4, hR2⟩)
  · intro p pe hpe d hd
    have hpe2 : lookupKey p (modifyEl c (fun e => { e with parentId := none })
        els1) = some pe := hpe
    rw [lookupKey_modifyEl] at hpe2
    have hkey : ∃ pe1, lookupKey p els1 = some pe1 ∧ pe.children = pe1.children := by
      by_cases hp : p = c
      · rw [if_pos hp] at hpe2
        subst hp
        rw [hc1] at hpe2
        exact ⟨child1, hc1, by rw [← Option.some.inj hpe2]⟩
      · rw [if_neg hp] at hpe2
        exact ⟨pe, hpe2, rfl⟩
    obtain ⟨pe1, hpe1, hch⟩ := hkey
    rw [hch] at hd
    have hdc : d ≠ c := fun hh => hE4 p pe1 hpe1 (hh ▸ hd)
    obtain ⟨pe0, hpe0, hsub, _⟩ := hE3 p pe1 hpe1
    obtain ⟨de, hde, hdp⟩ := hCL p pe0 hpe0 d (hsub d hd)
    refine lookup_map_parentId_exists ?_
    show (lookupKey d (modifyEl c (fun e => { e with parentId := none })
      els1)).map DesignElement.parentId = some (some p)
    rw [hother d hdc, hE1, hde]
    rw [show (some de).map DesignElement.parentId = some de.parentId from rfl,
      hdp]
  · intro p pe hpe
    have hpe2 : lookupKey p (modifyEl c (fun e => { e with parentId := none })
        els1) = some pe := hpe
    rw [lookupKey_modifyEl] at hpe2
    have hkey : ∃ pe1, lookupKey p els1 = some pe1 ∧ pe.children = pe1.children := by
      by_cases hp : p = c
      · rw [if_pos hp] at hpe2
        subst hp
        rw [hc1] at hpe2
        exact ⟨child1, hc1, by rw [← Option.some.inj hpe2]⟩
      · rw [if_neg hp] at hpe2
        exact ⟨pe, hpe2, rfl⟩
    obtain ⟨pe1, hpe1, hch⟩ := hkey
    obtain ⟨pe0, hpe0, _, hnd⟩ := hE3 p pe1 hpe1
    rw [hch]
    exact hnd (hCN p pe0 hpe0)

/-- Core preservation lemma for `setParent(c, np)` with a live new parent:
re-pointing a detached element at `np` and splicing it into `np`'s children
preserves the tree invariant. -/
theorem wf_move_into (s : EditorState) (c np : ElementId)
    (child1 npe1 : DesignElement)
    (els1 : ElementTable) (ro1 : List ElementId) (sel : Option ElementId)
    (tidx : Option Int)
    (hwf : WFDoc (docOf s))
    (hnpc : np ≠ c)
    (hc1 : lookupKey c els1 = some child1)
    (hnpl : lookupKey np els1 = some npe1)
    (hE1 : ∀ x, (lookupKey x els1).map DesignElement.parentId =
        (lookupKey x s.elements).map DesignElement.parentId)
    (hE2 : ∀ kv ∈ els1, ∃ v0, (kv.1, v0) ∈ s.elements ∧
        kv.2.parentId = v0.parentId)
    (hE3 : ∀ p pe, lookupKey p els1 = some pe → ∃ pe0,
        lookupKey p s.elements = some pe0 ∧
        (∀ x ∈ pe.children, x ∈ pe0.children) ∧
        (pe0.children.Nodup → pe.children.Nodup))
    (hE4 : ∀ p pe, lookupKey p els1 = some pe → c ∉ pe.children)
    (hR1 : ∀ x ∈ ro1, x ∈ s.rootElementOrder)
    (hR2 : ro1.Nodup)
    (hR3 : ∀ x ∈ s.rootElementOrder, x ≠ c → x ∈ ro1)
    (hR4 : c ∉ ro1) :
    WFDoc { elements := modifyChildren np (fun ch => jsSpliceInsertOpt ch tidx c) (modifyEl c (fun e => { e with parentId := some np }) els1), selectedElementId := sel, rootElementOrder := ro1 } := by
  have hRL : ∀ i ∈ s.rootElementOrder,
      (lookupKey i s.elements).map DesignElement.parentId = some none :=
    hwf.rootLive
  have hRC : ∀ kv ∈ s.elements, kv.2.parentId = none →
      kv.1 ∈ s.rootElementOrder := hwf.rootComplete
  have hCL : ∀ p pe, lookupKey p s.elements = some pe → ∀ c ∈ pe.children,
      ∃ ce, lookupKey c s.elements = some ce ∧ ce.parentId = some p :=
    hwf.childLive
  have hCN : ∀ p pe, lookupKey p s.elements = some pe → pe.children.Nodup :=
    hwf.childNodup
  have hels3 : modifyChildren np (fun ch => jsSpliceInsertOpt ch tidx c)
      (modifyEl c (fun e => { e with parentId := some np }) els1) =
      modifyEl np (fun e => { e with
        children := jsSpliceInsertOpt e.children tidx c })
      (modifyEl c (fun e => { e with parentId := some np }) els1) := rfl
  have hlc2 : lookupKey c (modifyEl c (fun e => { e with parentId := some np })
      els1) = some { child1 with parentId := some np } := by
    rw [lookupKey_modifyEl, if_pos rfl, hc1]
    rfl
  have hnp2 : lookupKey np (modifyEl c (fun e => { e with parentId := some np })
      els1) = some npe1 := by
    rw [lookupKey_modifyEl, if_neg hnpc]
    exact hnpl
  have hother2 : ∀ x, x ≠ c → lookupKey x (modifyEl c
      (fun e => { e with parentId := some np }) els1) = lookupKey x els1 := by
    intro x hx
    rw [lookupKey_modifyEl, if_neg hx]
  have hmap2 : ∀ x, x ≠ c → (lookupKey x (modifyEl c
      (fun e => { e with parentId := some np }) els1)).map
        DesignElement.parentId =
      (lookupKey x s.elements).map DesignElement.parentId := by
    intro x hx
    rw [hother2 x hx, hE1]
  have hmap3 : ∀ x, (lookupKey x (modifyChildren np
      (fun ch => jsSpliceInsertOpt ch tidx c)
      (modifyEl c (fun e => { e with parentId := some np }) els1))).map
        DesignElement.parentId =
      (lookupKey x (modifyEl c (fun e => { e with parentId := some np })
        els1)).map DesignElement.parentId := by
    intro x
    exact parentIdMap_modifyEl np
      (fun e => { e with children := jsSpliceInsertOpt e.children tidx c })
      (modifyEl c (fun e => { e with parentId := some np }) els1)
      (fun e => rfl) x
  have hother3 : ∀ x, x ≠ np → lookupKey x (modifyChildren np
      (fun ch => jsSpliceInsertOpt ch tidx c)
      (modifyEl c (fun e => { e with parentId := some np }) els1)) =
      lookupKey x (modifyEl c (fun e => { e with parentId := some np })
        els1) := by
    intro x hx
    rw [hels3, lookupKey_modifyEl, if_neg hx]
  have hlc3 : lookupKey c (modifyChildren np
      (fun ch => jsSpliceInsertOpt ch tidx c)
      (modifyEl c (fun e => { e with parentId := some np }) els1)) =
      some { child1 with parentId := some np } := by
    rw [hother3 c (fun h => hnpc h.symm)]
    exact hlc2
  have hnp3 : lookupKey np (modifyChildren np
      (fun ch => jsSpliceInsertOpt ch tidx c)
      (modifyEl c (fun e => { e with parentId := some np }) els1)) =
      some { npe1 with children := jsSpliceInsertOpt npe1.children tidx c } := by
    rw [hels3, lookupKey_modifyEl, if_pos rfl, hnp2]
    rfl
  have hkey : ∀ p pe, p ≠ np → lookupKey p (modifyChildren np
      (fun ch => jsSpliceInsertOpt ch tidx c)
      (modifyEl c (fun e => { e with parentId := some np }) els1)) = some pe →
      ∃ pe1, lookupKey p els1 = some pe1 ∧ pe.children = pe1.children := by
    intro p pe hp hpe
    rw [hother3 p hp] at hpe
    by_cases hpc : p = c
    · subst hpc
      rw [hlc2] at hpe
      exact ⟨child1, hc1, by rw [← Option.some.inj hpe]⟩
    · rw [hother2 p hpc] at hpe
      exact ⟨pe, hpe, rfl⟩
  constructor
  · intro i hi
    have hic : i ≠ c := fun hh => hR4 (hh ▸ hi)
    show (lookupKey i (modifyChildren np
      (fun ch => jsSpliceInsertOpt ch tidx c)
      (modifyEl c (fun e => { e with parentId := some np }) els1))).map
        DesignElement.parentId = some none
    rw [hmap3 i, hmap2 i hic]
    exact hRL i (hR1 i hi)
  · intro kv hkv hp
    rw [hels3] at hkv
    obtain ⟨v0, hv0, heq0⟩ := mem_modifyEl_eq kv np
      (fun e => { e with children := jsSpliceInsertOpt e.children tidx c })
      (modifyEl c (fun e => { e with parentId := some np }) els1) hkv
    have hv0p : v0.parentId = none := by
      rw [heq0] at hp
      by_cases h : kv.1 = np
      · rw [if_pos h] at hp
        exact hp
      · rw [if_neg h] at hp
        exact hp
    obtain ⟨v1, hv1, heq1⟩ := mem_modifyEl_eq (kv.1, v0) c
      (fun e => { e with parentId := some np }) els1 hv0
    have heq1' : v0 =
        if kv.1 = c then { v1 with parentId := some np } else v1 := heq1
    have hv1' : ((kv.1 : ElementId), v1) ∈ els1 := hv1
    by_cases hkc : kv.1 = c
    · exfalso
      rw [if_pos hkc] at heq1'
      have hnp' : v0.parentId = some np := by rw [heq1']
      rw [hv0p] at hnp'
      exact Option.noConfusion hnp'
    · rw [if_neg hkc] at heq1'
      obtain ⟨v2, hv2, hpeq⟩ := hE2 (kv.1, v1) hv1'
      have hpeq' : v1.parentId = v2.parentId := hpeq
      have hv2' : ((kv.1 : ElementId), v2) ∈ s.elements := hv2
      have hv2p : v2.parentId = none := by
        rw [← hpeq', ← heq1']
        exact hv0p
      exact hR3 kv.1 (hRC (kv.1, v2) hv2' hv2p) hkc
  · exact hR2
  · intro p pe hpe d hd
    by_cases hp : p = np
    · subst hp
      have hpe2 : some { npe1 with
          children := jsSpliceInsertOpt npe1.children tidx c } = some pe := by
        rw [← hnp3]
        exact hpe
      have hpe3 : pe = { npe1 with
          children := jsSpliceInsertOpt npe1.children tidx c } :=
        (Option.some.inj hpe2).symm
      rw [hpe3] at hd
      have hd2 := (jsSpliceInsertOpt_perm npe1.children tidx c).mem_iff.mp hd
      rcases List.mem_cons.mp hd2 with h | h
      · subst h
        exact ⟨{ child1 with parentId := some p }, hlc3, rfl⟩
      · have hdc : d ≠ c := fun hh => hE4 p npe1 hnpl (hh ▸ h)
        obtain ⟨pe0, hpe0, hsub, _⟩ := hE3 p npe1 hnpl
        obtain ⟨de, hde, hdp⟩ := hCL p pe0 hpe0 d (hsub d h)
        refine lookup_map_parentId_exists ?_
        rw [hmap3 d, hmap2 d hdc, hde]
        rw [show (some de).map DesignElement.parentId = some de.parentId
          from rfl, hdp]
    · obtain ⟨pe1, hpe1, hch⟩ := hkey p pe hp hpe
      rw [hch] at hd
      have hdc : d ≠ c := fun hh => hE4 p pe1 hpe1 (hh ▸ hd)
      obtain ⟨pe0, hpe0, hsub, _⟩ := hE3 p pe1 hpe1
      obtain ⟨de, hde, hdp⟩ := hCL p pe0 hpe0 d (hsub d hd)
      refine lookup_map_parentId_exists ?_
      rw [hmap3 d, hmap2 d hdc, hde]
      rw [show (some de).map DesignElement.parentId = some de.parentId
        from rfl, hdp]
  · intro p pe hpe
    by_cases hp : p = np
    · subst hp
      have hpe2 : some { npe1 with
          children := jsSpliceInsertOpt npe1.children tidx c } = some pe := by
        rw [← hnp3]
        exact hpe
      have hpe3 : pe = { npe1 with
          children := jsSpliceInsertOpt npe1.children tidx c } :=
        (Option.some.inj hpe2).symm
      rw [hpe3]
      obtain ⟨pe0, hpe0, _, hnd⟩ := hE3 p npe1 hnpl
      refine (jsSpliceInsertOpt_perm npe1.children tidx c).nodup_iff.mpr ?_
      exact List.nodup_cons.mpr ⟨hE4 p npe1 hnpl, hnd (hCN p pe0 hpe0)⟩
    · obtain ⟨pe1, hpe1, hch⟩ := hkey p pe hp hpe
      obtain ⟨pe0, hpe0, _, hnd⟩ := hE3 p pe1 hpe1
      rw [hch]
      exact hnd (hCN p pe0 hpe0)

/-- A non-rejected `setParent` whose new parent argument is null or live
preserves the tree invariant. -/
theorem wf_setParentDoc (s : EditorState) (c : ElementId)
    (child : DesignElement) (pnew : Option ElementId) (tidx : Option Int)
    (hwf : WFDoc (docOf s)) (hc : lookupKey c s.elements = some child)
    (hncp : pnew ≠ some c)
    (hnp : ∀ np, pnew = some np → (lookupKey np s.elements).isSome = true) :
    WFDoc (setParentDoc c pnew tidx s child) := by
  have hRL : ∀ i ∈ s.rootElementOrder,
      (lookupKey i s.elements).map DesignElement.parentId = some none :=
    hwf.rootLive
  have hRN : s.rootElementOrder.Nodup := hwf.rootNodup
  have hCL : ∀ p pe, lookupKey p s.elements = some pe → ∀ d ∈ pe.children,
      ∃ ce, lookupKey d s.elements = some ce ∧ ce.parentId = some p :=
    hwf.childLive
  have hdet : ∀ p pe, lookupKey p s.elements = some pe → c ∈ pe.children →
      child.parentId = some p := by
    intro p pe hpe hmem
    obtain ⟨ce, hce, hcp⟩ := hCL p pe hpe c hmem
    rw [hc] at hce
    rw [Option.some.inj hce]
    exact hcp
  cases hop : child.parentId with
  | none =>
    have hE3 : ∀ p pe, lookupKey p s.elements = some pe → ∃ pe0,
        lookupKey p s.elements = some pe0 ∧
        (∀ x ∈ pe.children, x ∈ pe0.children) ∧
        (pe0.children.Nodup → pe.children.Nodup) :=
      fun p pe hpe => ⟨pe, hpe, fun x hx => hx, fun h => h⟩
    have hE4 : ∀ p pe, lookupKey p s.elements = some pe → c ∉ pe.children := by
      intro p pe hpe hmem
      have := hdet p pe hpe hmem
      rw [hop] at this
      exact Option.noConfusion this
    have hR3 : ∀ x ∈ s.rootElementOrder, x ≠ c →
        x ∈ s.rootElementOrder.filter (· ≠ c) :=
      fun x hx hxc => List.mem_filter.mpr ⟨hx, by simpa using hxc⟩
    have hR4 : c ∉ s.rootElementOrder.filter (· ≠ c) := by
      intro h
      have := (List.mem_filter.mp h).2
      simp at this
    cases pnew with
    | none =>
      have hmr := wf_move_root s c child s.elements
        (s.rootElementOrder.filter (· ≠ c)) s.selectedElementId tidx hwf hc
        (fun x => rfl) (fun kv h => ⟨kv.2, h, rfl⟩) hE3 hE4
        (fun x hx => (List.mem_filter.mp hx).1) (hRN.filter _) hR3 hR4
      refine wf_congr _ _ ?_ ?_ hmr
      · show modifyEl c (fun e => { e with parentId := none }) s.elements =
          (setParentDoc c none tidx s child).elements
        simp [setParentDoc, hop]
      · show jsSpliceInsertOpt (s.rootElementOrder.filter (· ≠ c)) tidx c =
          (setParentDoc c none tidx s child).rootElementOrder
        simp [setParentDoc, hop]
    | some np =>
      have hnpc : np ≠ c := fun h => hncp (by rw [h])
      obtain ⟨npe1, hnpe1⟩ := Option.isSome_iff_exists.mp (hnp np rfl)
      have hmi := wf_move_into s c np child npe1 s.elements
        (s.rootElementOrder.filter (· ≠ c)) s.selectedElementId tidx hwf hnpc
        hc hnpe1 (fun x => rfl) (fun kv h => ⟨kv.2, h, rfl⟩) hE3 hE4
        (fun x hx => (List.mem_filter.mp hx).1) (hRN.filter _) hR3 hR4
      have hcond : (lookupKey np (modifyEl c
          (fun e => { e with parentId := some np }) s.elements)).isSome =
          true := by
        rw [lookupKey_modifyEl, if_neg hnpc, hnpe1]
        rfl
      refine wf_congr _ _ ?_ ?_ hmi
      · show modifyChildren np (fun ch => jsSpliceInsertOpt ch tidx c)
          (modifyEl c (fun e => { e with parentId := some np }) s.elements) =
          (setParentDoc c (some np) tidx s child).elements
        simp [setParentDoc, hop, hcond]
      · show s.rootElementOrder.filter (· ≠ c) =
          (setParentDoc c (some np) tidx s child).rootElementOrder
        simp [setParentDoc, hop, hcond]
  | some q =>
    have hR4 : c ∉ s.rootElementOrder := by
      intro h
      have hmap := hRL c h
      rw [hc] at hmap
      have h2 : child.parentId = none := Option.some.inj hmap
      rw [hop] at h2
      exact Option.noConfusion h2
    by_cases hq : (lookupKey q s.elements).isSome = true
    · obtain ⟨qe, hqe⟩ := Option.isSome_iff_exists.mp hq
      obtain ⟨child1, hc1⟩ : ∃ ch1, lookupKey c (modifyChildren q
          (fun ch => ch.filter (· ≠ c)) s.elements) = some ch1 := by
        by_cases hcq : c = q
        · refine ⟨{ qe with children := qe.children.filter (· ≠ c) }, ?_⟩
          show lookupKey c (modifyEl q
            (fun e => { e with children := e.children.filter (· ≠ c) })
            s.elements) = _
          rw [lookupKey_modifyEl, if_pos hcq, hcq, hqe]
          rfl
        · refine ⟨child, ?_⟩
          show lookupKey c (modifyEl q
            (fun e => { e with children := e.children.filter (· ≠ c) })
            s.elements) = _
          rw [lookupKey_modifyEl, if_neg hcq]
          exact hc
      have hE1 : ∀ x, (lookupKey x (modifyChildren q
          (fun ch => ch.filter (· ≠ c)) s.elements)).map
            DesignElement.parentId =
          (lookupKey x s.elements).map DesignElement.parentId := by
        intro x
        exact parentIdMap_modifyEl q
          (fun e => { e with children := e.children.filter (· ≠ c) })
          s.elements (fun e => rfl) x
      have hE2 : ∀ kv ∈ modifyChildren q (fun ch => ch.filter (· ≠ c))
          s.elements, ∃ v0, (kv.1, v0) ∈ s.elements ∧
          kv.2.parentId = v0.parentId := by
        intro kv hkv
        obtain ⟨v0, hv0, heq⟩ := mem_modifyEl_eq kv q
          (fun e => { e with children := e.children.filter (· ≠ c) })
          s.elements hkv
        refine ⟨v0, hv0, ?_⟩
        rw [heq]
        by_cases h : kv.1 = q
        · rw [if_pos h]
        · rw [if_neg h]
      have hE3 : ∀ p pe, lookupKey p (modifyChildren q
          (fun ch => ch.filter (· ≠ c)) s.elements) = some pe → ∃ pe0,
          lookupKey p s.elements = some pe0 ∧
          (∀ x ∈ pe.children, x ∈ pe0.children) ∧
          (pe0.children.Nodup → pe.children.Nodup) := by
        intro p pe hpe
        have hpe2 : lookupKey p (modifyEl q
            (fun e => { e with children := e.children.filter (· ≠ c) })
            s.elements) = some pe := hpe
        rw [lookupKey_modifyEl] at hpe2
        by_cases hp : p = q
        · rw [if_pos hp] at hpe2
          subst hp
          rw [hqe] at hpe2
          have hpe3 : pe = { qe with children := qe.children.filter (· ≠ c) } := by
            simpa using hpe2.symm
          refine ⟨qe, hqe, ?_, ?_⟩
          · intro x hx
            rw [hpe3] at hx
            exact (List.mem_filter.mp hx).1
          · intro hnd
            rw [hpe3]
            exact hnd.filter _
        · rw [if_neg hp] at hpe2
          exact ⟨pe, hpe2, fun x hx => hx, fun h => h⟩
      have hE4 : ∀ p pe, lookupKey p (modifyChildren q
          (fun ch => ch.filter (· ≠ c)) s.elements) = some pe →
          c ∉ pe.children := by
        intro p pe hpe hmem
        have hpe2 : lookupKey p (modifyEl q
            (fun e => { e with children := e.children.filter (· ≠ c) })
            s.elements) = some pe := hpe
        rw [lookupKey_modifyEl] at hpe2
        by_cases hp : p = q
        · rw [if_pos hp] at hpe2
          subst hp
          rw [hqe] at hpe2
          have hpe3 : pe = { qe with children := qe.children.filter (· ≠ c) } := by
            simpa using hpe2.symm
          rw [hpe3] at hmem
          have := (List.mem_filter.mp hmem).2
          simp at this
        · rw [if_neg hp] at hpe2
          have := hdet p pe hpe2 hmem
          rw [hop] at this
          exact hp (Option.some.inj this).symm
      cases pnew with
      | none =>
        have hmr := wf_move_root s c child1
          (modifyChildren q (fun ch => ch.filter (· ≠ c)) s.elements)
          s.rootElementOrder s.selectedElementId tidx hwf hc1 hE1 hE2 hE3 hE4
          (fun x hx => hx) hRN (fun x hx _ => hx) hR4
        refine wf_congr _ _ ?_ ?_ hmr
        · show modifyEl c (fun e => { e with parentId := none })
            (modifyChildren q (fun ch => ch.filter (· ≠ c)) s.elements) =
            (setParentDoc c none tidx s child).elements
          simp [setParentDoc, hop, hq]
        · show jsSpliceInsertOpt s.rootElementOrder tidx c =
            (setParentDoc c none tidx s child).rootElementOrder
          simp [setParentDoc, hop, hq]
      | some np =>
        have hnpc : np ≠ c := fun h => hncp (by rw [h])
        obtain ⟨npe0, hnpe0⟩ := Option.isSome_iff_exists.mp (hnp np rfl)
        obtain ⟨npe1, hnpe1⟩ : ∃ npe1, lookupKey np (modifyChildren q
            (fun ch => ch.filter (· ≠ c)) s.elements) = some npe1 := by
          by_cases hnq : np = q
          · refine ⟨{ qe with children := qe.children.filter (· ≠ c) }, ?_⟩
            show lookupKey np (modifyEl q
              (fun e => { e with children := e.children.filter (· ≠ c) })
              s.elements) = _
            rw [lookupKey_modifyEl, if_pos hnq]
            subst hnq
            rw [hqe]
            rfl
          · refine ⟨npe0, ?_⟩
            show lookupKey np (modifyEl q
              (fun e => { e with children := e.children.filter (· ≠ c) })
              s.elements) = _
            rw [lookupKey_modifyEl, if_neg hnq]
            exact hnpe0
        have hmi := wf_move_into s c np child1 npe1
          (modifyChildren q (fun ch => ch.filter (· ≠ c)) s.elements)
          s.rootElementOrder s.selectedElementId tidx hwf hnpc hc1 hnpe1
          hE1 hE2 hE3 hE4 (fun x hx => hx) hRN (fun x hx _ => hx) hR4
        have hcond : (lookupKey np (modifyEl c
            (fun e => { e with parentId := some np })
            (modifyChildren q (fun ch => ch.filter (· ≠ c))
              s.elements))).isSome = true := by
          rw [lookupKey_modifyEl, if_neg hnpc]
          have hnpe1' : lookupKey np (modifyChildren q
              (fun ch => ch.filter (· ≠ c)) s.elements) = some npe1 := hnpe1
          rw [hnpe1']
          rfl
        simp only [ne_eq, decide_not] at hcond
        refine wf_congr _ _ ?_ ?_ hmi
        · show modifyChildren np (fun ch => jsSpliceInsertOpt ch tidx c)
            (modifyEl c (fun e => { e with parentId := some np })
              (modifyChildren q (fun ch => ch.filter (· ≠ c)) s.elements)) =
            (setParentDoc c (some np) tidx s child).elements
          simp [setParentDoc, hop, hq, hcond]
        · show s.rootElementOrder =
            (setParentDoc c (some np) tidx s child).rootElementOrder
          simp [setParentDoc, hop, hq, hcond]
    · have hqn : lookupKey q s.elements = none := by
        cases hl : lookupKey q s.elements with
        | none => rfl
        | some v => rw [hl] at hq; simp at hq
      have hE3 : ∀ p pe, lookupKey p s.elements = some pe → ∃ pe0,
          lookupKey p s.elements = some pe0 ∧
          (∀ x ∈ pe.children, x ∈ pe0.children) ∧
          (pe0.children.Nodup → pe.children.Nodup) :=
        fun p pe hpe => ⟨pe, hpe, fun x hx => hx, fun h => h⟩
      have hE4 : ∀ p pe, lookupKey p s.elements = some pe →
          c ∉ pe.children := by
        intro p pe hpe hmem
        have := hdet p pe hpe hmem
        rw [hop] at this
        rw [← Option.some.inj this, hqn] at hpe
        exact Option.noConfusion hpe
      cases pnew with
      | none =>
        have hmr := wf_move_root s c child s.elements s.rootElementOrder
          s.selectedElementId tidx hwf hc (fun x => rfl)
          (fun kv h => ⟨kv.2, h, rfl⟩) hE3 hE4
          (fun x hx => hx) hRN (fun x hx _ => hx) hR4
        refine wf_congr _ _ ?_ ?_ hmr
        · show modifyEl c (fun e => { e with parentId := none }) s.elements =
            (setParentDoc c none tidx s child).elements
          simp [setParentDoc, hop, hqn]
        · show jsSpliceInsertOpt s.rootElementOrder tidx c =
            (setParentDoc c none tidx s child).rootElementOrder
          simp [setParentDoc, hop, hqn]
      | some np =>
        have hnpc : np ≠ c := fun h => hncp (by rw [h])
        obtain ⟨npe1, hnpe1⟩ := Option.isSome_iff_exists.mp (hnp np rfl)
        have hmi := wf_move_into s c np child npe1 s.elements
          s.rootElementOrder s.selectedElementId tidx hwf hnpc hc hnpe1
          (fun x => rfl) (fun kv h => ⟨kv.2, h, rfl⟩) hE3 hE4
          (fun x hx => hx) hRN (fun x hx _ => hx) hR4
        have hcond : (lookupKey np (modifyEl c
            (fun e => { e with parentId := some np }) s.elements)).isSome =
            true := by
          rw [lookupKey_modifyEl, if_neg hnpc, hnpe1]
          rfl
        refine wf_congr _ _ ?_ ?_ hmi
        · show modifyChildren np (fun ch => jsSpliceInsertOpt ch tidx c)
            (modifyEl c (fun e => { e with parentId := some np })
              s.elements) =
            (setParentDoc c (some np) tidx s child).elements
          simp [setParentDoc, hop, hqn, hcond]
        · show s.rootElementOrder =
            (setParentDoc c (some np) tidx s child).rootElementOrder
          simp [setParentDoc, hop, hqn, hcond]

/-- A successful `reorderSiblings` (the dragged and target ids were found)
preserves the tree invariant: the written-back list is a permutation of the
original sibling list. -/
theorem wf_reorderSiblingsDoc (s : EditorState) (pid : Option ElementId)
    (dr t : ElementId) (pos : Bool) (newList : List ElementId)
    (hwf : WFDoc (docOf s))
    (h : reorderedList (siblingListOf s pid) dr t pos = some newList) :
    WFDoc (reorderSiblingsDoc pid newList s) := by
  have hRL : ∀ i ∈ s.rootElementOrder,
      (lookupKey i s.elements).map DesignElement.parentId = some none :=
    hwf.rootLive
  have hRC : ∀ kv ∈ s.elements, kv.2.parentId = none →
      kv.1 ∈ s.rootElementOrder := hwf.rootComplete
  have hRN : s.rootElementOrder.Nodup := hwf.rootNodup
  have hCL : ∀ p pe, lookupKey p s.elements = some pe → ∀ d ∈ pe.children,
      ∃ ce, lookupKey d s.elements = some ce ∧ ce.parentId = some p :=
    hwf.childLive
  have hCN : ∀ p pe, lookupKey p s.elements = some pe → pe.children.Nodup :=
    hwf.childNodup
  have hperm := reorderedList_perm (siblingListOf s pid) newList dr t pos h
  cases pid with
  | none =>
    have hperm' : List.Perm newList s.rootElementOrder := hperm
    constructor
    · intro i hi
      exact hRL i (hperm'.mem_iff.mp hi)
    · intro kv hkv hp
      exact hperm'.mem_iff.mpr (hRC kv hkv hp)
    · exact hperm'.nodup_iff.mpr hRN
    · exact hCL
    · exact hCN
  | some p =>
    by_cases hps : (lookupKey p s.elements).isSome = true
    · obtain ⟨pe, hpe⟩ := Option.isSome_iff_exists.mp hps
      have hsib : siblingListOf s (some p) = pe.children := by
        show ((lookupKey p s.elements).map DesignElement.children).getD [] =
          pe.children
        rw [hpe]
        rfl
      rw [hsib] at hperm
      have hshape : reorderSiblingsDoc (some p) newList s =
          { docOf s with elements :=
              modifyChildren p (fun _ => newList) s.elements } := by
        simp [reorderSiblingsDoc, hps]
      rw [hshape]
      have hmap : ∀ x, (lookupKey x (modifyEl p
          (fun e => { e with children := newList }) s.elements)).map
            DesignElement.parentId =
          (lookupKey x s.elements).map DesignElement.parentId :=
        fun x => parentIdMap_modifyEl p (fun e => { e with children := newList })
          s.elements (fun e => rfl) x
      constructor
      · intro i hi
        show (lookupKey i (modifyEl p (fun e => { e with children := newList })
          s.elements)).map DesignElement.parentId = some none
        rw [hmap i]
        exact hRL i hi
      · intro kv hkv hp2
        obtain ⟨v0, hv0, heq⟩ := mem_modifyEl_eq kv p
          (fun e => { e with children := newList }) s.elements hkv
        have hv0p : v0.parentId = none := by
          rw [heq] at hp2
          by_cases hc : kv.1 = p
          · rw [if_pos hc] at hp2
            exact hp2
          · rw [if_neg hc] at hp2
            exact hp2
        exact hRC (kv.1, v0) hv0 hv0p
      · exact hRN
      · intro p2 pe2 hpe2 d hd
        have hpe3 : lookupKey p2 (modifyEl p
            (fun e => { e with children := newList }) s.elements) =
            some pe2 := hpe2
        rw [lookupKey_modifyEl] at hpe3
        have hd0 : ∃ pe0, lookupKey p2 s.elements = some pe0 ∧
            d ∈ pe0.children := by
          by_cases hc : p2 = p
          · rw [if_pos hc] at hpe3
            subst hc
            rw [hpe] at hpe3
            have : pe2 = { pe with children := newList } := by
              simpa using hpe3.symm
            rw [this] at hd
            exact ⟨pe, hpe, hperm.mem_iff.mp hd⟩
          · rw [if_neg hc] at hpe3
            exact ⟨pe2, hpe3, hd⟩
        obtain ⟨pe0, hpe0, hd0⟩ := hd0
        obtain ⟨de, hde, hdp⟩ := hCL p2 pe0 hpe0 d hd0
        refine lookup_map_parentId_exists ?_
        show (lookupKey d (modifyEl p (fun e => { e with children := newList })
          s.elements)).map DesignElement.parentId = some (some p2)
        rw [hmap d, hde]
        rw [show (some de).map DesignElement.parentId = some de.parentId
          from rfl, hdp]
      · intro p2 pe2 hpe2
        have hpe3 : lookupKey p2 (modifyEl p
            (fun e => { e with children := newList }) s.elements) =
            some pe2 := hpe2
        rw [lookupKey_modifyEl] at hpe3
        by_cases hc : p2 = p
        · rw [if_pos hc] at hpe3
          subst hc
          rw [hpe] at hpe3
          have : pe2 = { pe with children := newList } := by
            simpa using hpe3.symm
          rw [this]
          exact hperm.nodup_iff.mpr (hCN p2 pe hpe)
        · rw [if_neg hc] at hpe3
          exact hCN p2 pe2 hpe3
    · have hshape : reorderSiblingsDoc (some p) newList s = docOf s := by
        simp only [reorderSiblingsDoc]
        rw [if_neg]
        intro hcon
        exact hps hcon
      rw [hshape]
      exact hwf

/-! ### C8 -/

/-- Coherence of the undo stack with a document: each entry's `after`
components match the document above it, its `before` document is
well-formed, and the rest of the stack is coherent with that `before`. -/
def UChain : DocState → List HistoryEntry → Prop
  | _, [] => True
  | d, e :: rest =>
      d.elements = e.after.elements ∧
      d.rootElementOrder = e.after.rootElementOrder ∧
      WFDoc e.before ∧ UChain e.before rest

/-- Redo-stack analogue of `UChain`. -/
def RChain : DocState → List HistoryEntry → Prop
  | _, [] => True
  | d, e :: rest =>
      d.elements = e.before.elements ∧
      d.rootElementOrder = e.before.rootElementOrder ∧
      WFDoc e.after ∧ RChain e.after rest

/-- Full coherence of a store state: well-formed document, coherent undo
and redo stacks, no interaction in flight. -/
def Coh (s : EditorState) : Prop :=
  WFDoc (docOf s) ∧ UChain (docOf s) s.undoStack ∧
    RChain (docOf s) s.redoStack ∧ s.isInteractionActive = false

theorem uchain_congr (d1 d2 : DocState) (he : d1.elements = d2.elements)
    (hr : d1.rootElementOrder = d2.rootElementOrder)
    (l : List HistoryEntry) (h : UChain d1 l) : UChain d2 l := by
  cases l with
  | nil => trivial
  | cons e rest =>
    have h' : d1.elements = e.after.elements ∧
        d1.rootElementOrder = e.after.rootElementOrder ∧
        WFDoc e.before ∧ UChain e.before rest := h
    exact ⟨he ▸ h'.1, hr ▸ h'.2.1, h'.2.2.1, h'.2.2.2⟩

theorem rchain_congr (d1 d2 : DocState) (he : d1.elements = d2.elements)
    (hr : d1.rootElementOrder = d2.rootElementOrder)
    (l : List HistoryEntry) (h : RChain d1 l) : RChain d2 l := by
  cases l with
  | nil => trivial
  | cons e rest =>
    have h' : d1.elements = e.before.elements ∧
        d1.rootElementOrder = e.before.rootElementOrder ∧
        WFDoc e.after ∧ RChain e.after rest := h
    exact ⟨he ▸ h'.1, hr ▸ h'.2.1, h'.2.2.1, h'.2.2.2⟩

/-- A `commit` of a well-formed document preserves coherence. -/
theorem coh_commit (s : EditorState) (d : DocState)
    (hcoh : Coh s) (hwfd : WFDoc d) : Coh (commit s d) := by
  unfold commit
  by_cases h : docOf s = d
  · rw [if_pos h]
    exact hcoh
  · rw [if_neg h]
    refine ⟨?_, ?_, ?_, ?_⟩
    · show WFDoc (docOf (recordHistory (setDoc s d)
        { before := docOf s, after := d }))
      have hd : docOf (recordHistory (setDoc s d)
          { before := docOf s, after := d }) = d := rfl
      rw [hd]
      exact hwfd
    · show UChain d ({ before := docOf s, after := d } :: s.undoStack)
      exact ⟨rfl, rfl, hcoh.1, hcoh.2.1⟩
    · show RChain d []
      trivial
    · show s.isInteractionActive = false
      exact hcoh.2.2.2

/-- Inverse patches applied to a document that agrees with the entry's
`after` on the recorded components restore the `before` components. -/
theorem applyInversePatches_agree (d : DocState) (e : HistoryEntry)
    (he : d.elements = e.after.elements)
    (hr : d.rootElementOrder = e.after.rootElementOrder) :
    (applyInversePatches d e).elements = e.before.elements ∧
    (applyInversePatches d e).rootElementOrder =
      e.before.rootElementOrder := by
  constructor
  · show (if e.before.elements = e.after.elements then d.elements
      else e.before.elements) = e.before.elements
    by_cases hb : e.before.elements = e.after.elements
    · rw [if_pos hb, he, hb]
    · rw [if_neg hb]
  · show (if e.before.rootElementOrder = e.after.rootElementOrder
      then d.rootElementOrder else e.before.rootElementOrder) =
      e.before.rootElementOrder
    by_cases hb : e.before.rootElementOrder = e.after.rootElementOrder
    · rw [if_pos hb, hr, hb]
    · rw [if_neg hb]

/-- Forward analogue of `applyInversePatches_agree`. -/
theorem applyForwardPatches_agree (d : DocState) (e : HistoryEntry)
    (he : d.elements = e.before.elements)
    (hr : d.rootElementOrder = e.before.rootElementOrder) :
    (applyForwardPatches d e).elements = e.after.elements ∧
    (applyForwardPatches d e).rootElementOrder =
      e.after.rootElementOrder := by
  constructor
  · show (if e.before.elements = e.after.elements then d.elements
      else e.after.elements) = e.after.elements
    by_cases hb : e.before.elements = e.after.elements
    · rw [if_pos hb, he, hb]
    · rw [if_neg hb]
  · show (if e.before.rootElementOrder = e.after.rootElementOrder
      then d.rootElementOrder else e.after.rootElementOrder) =
      e.after.rootElementOrder
    by_cases hb : e.before.rootElementOrder = e.after.rootElementOrder
    · rw [if_pos hb, hr, hb]
    · rw [if_neg hb]

theorem coh_undo (s : EditorState) (hcoh : Coh s) : Coh (undo s) := by
  by_cases hcu : s.canUndo = false
  · unfold undo
    rw [if_pos hcu]
    exact hcoh
  · cases hst : s.undoStack with
    | nil =>
      unfold undo
      rw [if_neg hcu, hst]
      exact hcoh
    | cons e rest =>
      have hcu' : s.canUndo = true := by
        cases hb : s.canUndo
        · exact absurd hb hcu
        · rfl
      have hun := undo_eq s e rest hcu' hst
      have hch : UChain (docOf s) (e :: rest) := by
        rw [← hst]
        exact hcoh.2.1
      have hch' : (docOf s).elements = e.after.elements ∧
          (docOf s).rootElementOrder = e.after.rootElementOrder ∧
          WFDoc e.before ∧ UChain e.before rest := hch
      have hagree := applyInversePatches_agree (docOf s) e hch'.1 hch'.2.1
      rw [hun]
      refine ⟨?_, ?_, ?_, ?_⟩
      · rw [docOf_withStacks, docOf_setDoc]
        exact wf_congr e.before _ hagree.1.symm hagree.2.symm hch'.2.2.1
      · rw [docOf_withStacks, docOf_setDoc, undoStack_withStacks]
        exact uchain_congr e.before _ hagree.1.symm hagree.2.symm rest
          hch'.2.2.2
      · rw [docOf_withStacks, docOf_setDoc, redoStack_withStacks]
        show RChain (applyInversePatches (docOf s) e) (e :: s.redoStack)
        refine ⟨hagree.1, hagree.2, ?_, ?_⟩
        · exact wf_congr (docOf s) e.after hch'.1 hch'.2.1 hcoh.1
        · exact rchain_congr (docOf s) e.after hch'.1 hch'.2.1 s.redoStack
            hcoh.2.2.1
      · rw [isInteractionActive_withStacks]
        show s.isInteractionActive = false
        exact hcoh.2.2.2

theorem coh_redo (s : EditorState) (hcoh : Coh s) : Coh (redo s) := by
  by_cases hcr : s.canRedo = false
  · unfold redo
    rw [if_pos hcr]
    exact hcoh
  · cases hst : s.redoStack with
    | nil =>
      unfold redo
      rw [if_neg hcr, hst]
      exact hcoh
    | cons e rest =>
      have hcr' : s.canRedo = true := by
        cases hb : s.canRedo
        · exact absurd hb hcr
        · rfl
      have hre := redo_eq s e rest hcr' hst
      have hch : RChain (docOf s) (e :: rest) := by
        rw [← hst]
        exact hcoh.2.2.1
      have hch' : (docOf s).elements = e.before.elements ∧
          (docOf s).rootElementOrder = e.before.rootElementOrder ∧
          WFDoc e.after ∧ RChain e.after rest := hch
      have hagree := applyForwardPatches_agree (docOf s) e hch'.1 hch'.2.1
      rw [hre]
      refine ⟨?_, ?_, ?_, ?_⟩
      · rw [docOf_withStacks, docOf_setDoc]
        exact wf_congr e.after _ hagree.1.symm hagree.2.symm hch'.2.2.1
      · rw [docOf_withStacks, docOf_setDoc, undoStack_withStacks]
        show UChain (applyForwardPatches (docOf s) e) (e :: s.undoStack)
        refine ⟨hagree.1, hagree.2, ?_, ?_⟩
        · exact wf_congr (docOf s) e.before hch'.1 hch'.2.1 hcoh.1
        · exact uchain_congr (docOf s) e.before hch'.1 hch'.2.1 s.undoStack
            hcoh.2.1
      · rw [docOf_withStacks, docOf_setDoc, redoStack_withStacks]
        exact rchain_congr e.after _ hagree.1.symm hagree.2.symm rest
          hch'.2.2.2
      · rw [isInteractionActive_withStacks]
        show s.isInteractionActive = false
        exact hcoh.2.2.2

theorem coh_addElement (el : DesignElement) (pid : Option ElementId)
    (tidx : Option Int) (s : EditorState) (hcoh : Coh s)
    (hfresh : lookupKey el.id s.elements = none)
    (hpar : ∀ p, pid = some p → (lookupKey p s.elements).isSome) :
    Coh (addElement el pid tidx s) :=
  coh_commit s (addElementDoc el pid tidx s) hcoh
    (wf_addElementDoc s el pid tidx hcoh.1 hfresh hpar)

theorem coh_selectElement (i : Option ElementId) (s : EditorState)
    (hcoh : Coh s) : Coh (selectElement i s) := by
  refine ⟨?_, ?_, ?_, ?_⟩
  · exact wf_congr (docOf s) (docOf (selectElement i s)) rfl rfl hcoh.1
  · exact uchain_congr (docOf s) (docOf (selectElement i s)) rfl rfl
      s.undoStack hcoh.2.1
  · exact rchain_congr (docOf s) (docOf (selectElement i s)) rfl rfl
      s.redoStack hcoh.2.2.1
  · exact hcoh.2.2.2

theorem coh_toggleLayerCollapse (i : ElementId) (s : EditorState)
    (hcoh : Coh s) : Coh (toggleLayerCollapse i s) := by
  refine ⟨?_, ?_, ?_, ?_⟩
  · exact wf_congr (docOf s) (docOf (toggleLayerCollapse i s)) rfl rfl hcoh.1
  · exact uchain_congr (docOf s) (docOf (toggleLayerCollapse i s)) rfl rfl
      s.undoStack hcoh.2.1
  · exact rchain_congr (docOf s) (docOf (toggleLayerCollapse i s)) rfl rfl
      s.redoStack hcoh.2.2.1
  · exact hcoh.2.2.2

theorem coh_updateElementStyle (id : ElementId) (st : ElementStyle)
    (s : EditorState) (hcoh : Coh s) : Coh (updateElementStyle id st s) := by
  have h1 : updateElementStyle id st s = commit s { docOf s with
      elements := modifyEl id
        (fun e => { e with style := mergeStyle e.style st }) s.elements } := by
    unfold updateElementStyle
    rw [hcoh.2.2.2]
    rfl
  rw [h1]
  exact coh_commit s _ hcoh
    (wf_modify_keepPC (docOf s) id
      (fun e => { e with style := mergeStyle e.style st })
      (fun e => ⟨rfl, rfl⟩) hcoh.1)

theorem coh_updateElementName (id : ElementId) (n : String) (s : EditorState)
    (hcoh : Coh s) : Coh (updateElementName id n s) :=
  coh_commit s _ hcoh
    (wf_modify_keepPC (docOf s) id (fun e => { e with name := n })
      (fun e => ⟨rfl, rfl⟩) hcoh.1)

theorem coh_deleteElement (id : ElementId) (s : EditorState) (hcoh : Coh s) :
    Coh (deleteElement id s) := by
  unfold deleteElement
  cases hl : lookupKey id s.elements with
  | none => exact hcoh
  | some e => exact coh_commit s _ hcoh (wf_deleteElementDoc s id e hcoh.1 hl)

theorem coh_setParent (c : ElementId) (pnew : Option ElementId)
    (tidx : Option Int) (s : EditorState) (hcoh : Coh s)
    (hnp : ∀ np, pnew = some np → (lookupKey np s.elements).isSome) :
    Coh (setParent c pnew tidx s) := by
  unfold setParent
  cases hl : lookupKey c s.elements with
  | none => exact hcoh
  | some child =>
    show Coh (if setParentGuard c pnew s = true then s
      else commit s (setParentDoc c pnew tidx s child))
    by_cases hg : setParentGuard c pnew s = true
    · rw [if_pos hg]
      exact hcoh
    · rw [if_neg hg]
      have hncp : pnew ≠ some c := by
        intro hcc
        apply hg
        rw [hcc]
        unfold setParentGuard
        simp
      exact coh_commit s _ hcoh
        (wf_setParentDoc s c child pnew tidx hcoh.1 hl hncp hnp)

theorem coh_reorderSiblings (pid : Option ElementId) (dr t : ElementId)
    (pos : Bool) (s : EditorState) (hcoh : Coh s) :
    Coh (reorderSiblings pid dr t pos s) := by
  unfold reorderSiblings
  cases hr : reorderedList (siblingListOf s pid) dr t pos with
  | none => exact hcoh
  | some newList =>
    exact coh_commit s _ hcoh
      (wf_reorderSiblingsDoc s pid dr t pos newList hcoh.1 hr)

/-- States reachable from the initial state by public operations whose
`addElement` calls use fresh ids, whose parent arguments (`addElement`'s
`parentId`, `setParent`'s `newParentId`) are null or live, and that never
use the interaction-batching pair. -/
inductive ReachableW : EditorState → Prop where
  | init : ReachableW initialState
  | add (s : EditorState) (el : DesignElement) (pid : Option ElementId)
      (tidx : Option Int) (hs : ReachableW s)
      (hfresh : lookupKey el.id s.elements = none)
      (hpar : ∀ p, pid = some p → (lookupKey p s.elements).isSome) :
      ReachableW (addElement el pid tidx s)
  | select (s : EditorState) (i : Option ElementId) (hs : ReachableW s) :
      ReachableW (selectElement i s)
  | style (s : EditorState) (id : ElementId) (st : ElementStyle)
      (hs : ReachableW s) : ReachableW (updateElementStyle id st s)
  | rename (s : EditorState) (id : ElementId) (n : String)
      (hs : ReachableW s) : ReachableW (updateElementName id n s)
  | del (s : EditorState) (id : ElementId) (hs : ReachableW s) :
      ReachableW (deleteElement id s)
  | setP (s : EditorState) (c : ElementId) (pnew : Option ElementId)
      (tidx : Option Int) (hs : ReachableW s)
      (hnp : ∀ np, pnew = some np → (lookupKey np s.elements).isSome) :
      ReachableW (setParent c pnew tidx s)
  | reorder (s : EditorState) (pid : Option ElementId) (dr t : ElementId)
      (pos : Bool) (hs : ReachableW s) :
      ReachableW (reorderSiblings pid dr t pos s)
  | toggle (s : EditorState) (i : ElementId) (hs : ReachableW s) :
      ReachableW (toggleLayerCollapse i s)
  | undoOp (s : EditorState) (hs : ReachableW s) : ReachableW (undo s)
  | redoOp (s : EditorState) (hs : ReachableW s) : ReachableW (redo s)

/-- Every reachable state (in the restricted sense) is coherent. -/
theorem reachable_coh (s : EditorState) (h : ReachableW s) : Coh s := by
  induction h with
  | init =>
    refine ⟨?_, trivial, trivial, rfl⟩
    constructor
    · intro i hi
      exact absurd (hi : i ∈ ([] : List ElementId)) (List.not_mem_nil i)
    · intro kv hkv _
      exact absurd (hkv : kv ∈ ([] : ElementTable)) (List.not_mem_nil kv)
    · exact List.nodup_nil
    · intro p pe hpe
      exact absurd (hpe : (none : Option DesignElement) = some pe)
        (fun hc => Option.noConfusion hc)
    · intro p pe hpe
      exact absurd (hpe : (none : Option DesignElement) = some pe)
        (fun hc => Option.noConfusion hc)
  | add s el pid tidx hs hfresh hpar ih =>
    exact coh_addElement el pid tidx s ih hfresh hpar
  | select s i hs ih => exact coh_selectElement i s ih
  | style s id st hs ih => exact coh_updateElementStyle id st s ih
  | rename s id n hs ih => exact coh_updateElementName id n s ih
  | del s id hs ih => exact coh_deleteElement id s ih
  | setP s c pnew tidx hs hnp ih => exact coh_setParent c pnew tidx s ih hnp
  | reorder s pid dr t pos hs ih => exact coh_reorderSiblings pid dr t pos s ih
  | toggle s i hs ih => exact coh_toggleLayerCollapse i s ih
  | undoOp s hs ih => exact coh_undo s ih
  | redoOp s hs ih => exact coh_redo s ih

/-- C8 (amended): in every state reachable from the initial empty state by
public operations whose `addElement` ids are fresh, whose parent arguments
are null or live, and that avoid the interaction-batching pair,
`rootElementOrder` contains exactly the ids of elements whose `parentId`
is null, with no duplicates.  (As stated over all operation sequences the
claim fails: see the counterexample, where `addElement` with a dead
`parentId` leaves a non-root element in `rootElementOrder`.) -/
theorem C8_root_order_invariant (s : EditorState) (h : ReachableW s) :
    RootInvariant (docOf s) :=
  wfDoc_rootInvariant (docOf s) (reachable_coh s h).1

/-- C8 witness: the invariant holds concretely after `addElement(A, null)`
from the initial state. -/
theorem C8_root_order_invariant_witness : RootInvariant (docOf afterAddA) :=
  C8_root_order_invariant afterAddA
    (ReachableW.add initialState elemA none none ReachableW.init rfl
      (fun p hp => Option.noConfusion hp))

/-- C8 counterexample (to the unconditional claim): `addElement` with a
dead `parentId` inserts the element into `rootElementOrder` even though
its `parentId` is the non-null dangling id, so the invariant is broken
after a single public operation. -/
theorem C8_counterexample :
    ¬ RootInvariant (docOf (addElement elemA (some "ghost") none
      initialState)) := by
  intro h
  exact absurd (h.1 "a" (by decide)) (by decide)
